import Mathlib

/-!
Verification of the day62 Rust JIT-compiler backend.

Shallow embedding of the adaptive execution engine found in
`backend/src/jit/mod.rs`, `backend/src/jit/codegen.rs` (the completed
version), `backend/src/interpreter/mod.rs` and `backend/src/ast/mod.rs`.

Modelling conventions:
* `i64`/`u64` values are modelled by unbounded `Int`/`Nat`; none of the
  verified properties concerns wrap-around behaviour.  Rust `/` and `%` on
  `i64` truncate toward zero, so they are modelled by `Int.tdiv`/`Int.tmod`.
* `HashMap<String, i64>` (the interpreter environment) is modelled as an
  association list with unique keys; insertion overwrites in place or
  appends.
* `HashMap<u64, JitEntry>` (the JIT cache) is modelled as a list of entries
  whose list order stands for the hash map's (unspecified) iteration order:
  `min_by_key` keeps the first minimum in iteration order, value updates via
  `get_mut` keep the position, and fresh insertions are modelled as appends.
* The two `Instant` based duration measurements of `execute` are real-time
  quantities; they enter the model as explicit oracle parameters `t`
  (measured evaluation time, ns) and `ct` (measured compilation time, ns).
* Machine code is modelled at instruction granularity: every `emit_*`
  helper of `X86CodeGenerator` appends the corresponding `Instr`
  constructors, and the byte-offset jump patching (`patch_jump` writes
  `target - pos - 4`, which decodes back to the absolute target) is modelled
  by storing the absolute target instruction index.
* `format!("{:?}", expr)` + `DefaultHasher` fingerprinting is modelled by a
  deterministic structural hash; only determinism of the fingerprint is used
  by the theorems.
* Error values carried by `anyhow::Error` are modelled by small inductive
  error types, one constructor per distinct error message of the source.
-/

/-- Binary operators of the expression language (`ast/mod.rs`, `BinaryOp`). -/
inductive BinaryOp where
  | add | sub | mul | div | mod | equal | notEqual | less | greater | lessEq | greaterEq
deriving DecidableEq

/-- AST of the expression language (`ast/mod.rs`, `Expr`).  `Variable` is a
Lean keyword, hence the constructor name `var`. -/
inductive Expr where
  | number (n : Int)
  | var (name : String)
  | binary (left : Expr) (op : BinaryOp) (right : Expr)
  | assignment (name : String) (value : Expr)
  | functionCall (name : String) (args : List Expr)
  | ifExpr (condition : Expr) (true_expr : Expr) (false_expr : Expr)

/-- The interpreter environment `Environment { variables: HashMap<String, i64> }`,
modelled as an association list with unique keys. -/
def Environment := List (String × Int)
deriving DecidableEq

/-- `Environment::set`: overwrite an existing binding in place, otherwise add one. -/
def envSet : Environment → String → Int → Environment
  | [], n, v => [(n, v)]
  | (k, w) :: rest, n, v =>
    if k = n then (k, v) :: rest else (k, w) :: envSet rest n v

/-- `Environment::get`. -/
def envGet : Environment → String → Option Int
  | [], _ => none
  | (k, w) :: rest, n => if k = n then some w else envGet rest n

/-- Interpreter-level errors, one constructor per `anyhow!` message in
`interpreter/mod.rs`. -/
inductive EvalError where
  | undefinedVariable (name : String)
  | divisionByZero
  | arityMismatch (fn : String) (expected got : Nat)
  | unknownFunction (name : String)
deriving DecidableEq

/-- `Interpreter::fibonacci` (recursive). -/
def fibonacci (n : Int) : Int :=
  if n ≤ 1 then n
  else fibonacci (n - 1) + fibonacci (n - 2)
termination_by n.toNat
decreasing_by
  · omega
  · omega

/-- `Interpreter::factorial`. -/
def factorial (n : Int) : Int :=
  if n ≤ 1 then 1 else n * factorial (n - 1)
termination_by n.toNat
decreasing_by
  · omega

/-- `Interpreter::power`: zero exponent gives 1, negative gives 0,
otherwise `base.pow(exp as u32)`. -/
def power (base exp : Int) : Int :=
  if exp = 0 then 1 else if exp < 0 then 0 else base ^ exp.toNat

/-- `Interpreter::eval_expr`.  The interpreter mutates its environment even
when evaluation later fails, so the updated environment is returned on both
the `Ok` and the `Err` path. -/
def evalExpr : Expr → Environment → (Except EvalError Int) × Environment
  | .number n, env => (.ok n, env)
  | .var name, env =>
    match envGet env name with
    | some v => (.ok v, env)
    | none => (.error (.undefinedVariable name), env)
  | .binary l op r, env =>
    match evalExpr l env with
    | (.error er, env₁) => (.error er, env₁)
    | (.ok lv, env₁) =>
      match evalExpr r env₁ with
      | (.error er, env₂) => (.error er, env₂)
      | (.ok rv, env₂) =>
        match op with
        | .add => (.ok (lv + rv), env₂)
        | .sub => (.ok (lv - rv), env₂)
        | .mul => (.ok (lv * rv), env₂)
        | .div =>
          if rv = 0 then (.error .divisionByZero, env₂) else (.ok (lv.tdiv rv), env₂)
        | .mod =>
          if rv = 0 then (.error .divisionByZero, env₂) else (.ok (lv.tmod rv), env₂)
        | .equal => (.ok (if lv = rv then 1 else 0), env₂)
        | .notEqual => (.ok (if lv = rv then 0 else 1), env₂)
        | .less => (.ok (if lv < rv then 1 else 0), env₂)
        | .greater => (.ok (if rv < lv then 1 else 0), env₂)
        | .lessEq => (.ok (if lv ≤ rv then 1 else 0), env₂)
        | .greaterEq => (.ok (if rv ≤ lv then 1 else 0), env₂)
  | .assignment name value, env =>
    match evalExpr value env with
    | (.error er, env₁) => (.error er, env₁)
    | (.ok v, env₁) => (.ok v, envSet env₁ name v)
  | .functionCall name args, env =>
    if name = "fib" then
      match args with
      | [a] =>
        (match evalExpr a env with
         | (.ok n, env₁) => (.ok (fibonacci n), env₁)
         | (.error er, env₁) => (.error er, env₁))
      | _ => (.error (.arityMismatch "fib" 1 args.length), env)
    else if name = "fact" then
      match args with
      | [a] =>
        (match evalExpr a env with
         | (.ok n, env₁) => (.ok (factorial n), env₁)
         | (.error er, env₁) => (.error er, env₁))
      | _ => (.error (.arityMismatch "fact" 1 args.length), env)
    else if name = "pow" then
      match args with
      | [a, b] =>
        (match evalExpr a env with
         | (.error er, env₁) => (.error er, env₁)
         | (.ok bv, env₁) =>
           match evalExpr b env₁ with
           | (.error er, env₂) => (.error er, env₂)
           | (.ok ev, env₂) => (.ok (power bv ev), env₂))
      | _ => (.error (.arityMismatch "pow" 2 args.length), env)
    else (.error (.unknownFunction name), env)
  | .ifExpr c tE fE, env =>
    match evalExpr c env with
    | (.error er, env₁) => (.error er, env₁)
    | (.ok cv, env₁) => if cv = 0 then evalExpr fE env₁ else evalExpr tE env₁

/-- `ExecutionResult` of `ast/mod.rs`. -/
structure ExecutionResult where
  value : Int
  environment : Environment
  execution_time_ns : Nat
  compilation_time_ns : Option Nat
  was_jit_compiled : Bool
deriving DecidableEq

/-- `Interpreter::evaluate_without_delay` with the measured duration `t`
supplied as an oracle. -/
def evaluateWithoutDelay (t : Nat) (e : Expr) (env : Environment) :
    (Except EvalError ExecutionResult) × Environment :=
  match evalExpr e env with
  | (.ok v, env') => (.ok ⟨v, env', t, none, false⟩, env')
  | (.error er, env') => (.error er, env')

/-- `Interpreter::evaluate`: same result structure as
`evaluate_without_delay`; the extra `thread::sleep` happens before the timer
starts, so it does not appear in the returned data. -/
def evaluate (t : Nat) (e : Expr) (env : Environment) :
    (Except EvalError ExecutionResult) × Environment :=
  match evalExpr e env with
  | (.ok v, env') => (.ok ⟨v, env', t, none, false⟩, env')
  | (.error er, env') => (.error er, env')

/-- One x86-64 instruction per `emit_*` helper of `X86CodeGenerator`
(`jit/codegen.rs`).  Jump instructions carry the absolute target
instruction index (the byte-relative displacement written by `patch_jump`
decodes to exactly this target). -/
inductive Instr where
  | pushRbp
  | movRbpRsp
  | movRspRbp
  | popRbp
  | ret
  | movRaxImm (v : Int)
  | pushRax
  | popRcx
  | addRaxRcx
  | subRaxRcx
  | mulRaxRcx
  | xorRdxRdx
  | divRcx
  | testRax
  | cmpRaxRcx
  | sete
  | setl
  | setg
  | movzxRaxAl
  | movStackRax (offset : Int)
  | movRaxStack (offset : Int)
  | jz (target : Nat)
  | jmp (target : Nat)
deriving DecidableEq

/-- Code-generation errors, one constructor per `anyhow!` message in
`jit/codegen.rs`. -/
inductive CodeGenError where
  | undefinedVariable (name : String)
  | unsupportedBinaryOperation (op : BinaryOp)
  | unsupportedExpressionType
deriving DecidableEq

/-- The mutable fields of `X86CodeGenerator` (`variables` is a Lean keyword,
hence the field name `vars`). -/
structure CGState where
  code : List Instr
  vars : List (String × Int)
  stack_offset : Int
deriving DecidableEq

/-- `X86CodeGenerator::patch_jump`: write the jump displacement at a
placeholder position.  At instruction granularity this stores the absolute
target index into the `jz`/`jmp` instruction at position `pos`. -/
def patchJump : List Instr → Nat → Nat → List Instr
  | [], _, _ => []
  | i :: rest, 0, tg =>
    (match i with
     | .jz _ => .jz tg
     | .jmp _ => .jmp tg
     | i => i) :: rest
  | i :: rest, n + 1, tg => i :: patchJump rest n tg

/-- `X86CodeGenerator::allocate_variable`: reuse the slot of an existing
name, otherwise move the stack offset down by 8 and record the new slot.
Returns (offset, variables, stack_offset). -/
def allocateVariable (vars : List (String × Int)) (soff : Int) (name : String) :
    Int × List (String × Int) × Int :=
  match envGet vars name with
  | some off => (off, vars, soff)
  | none => (soff - 8, envSet vars name (soff - 8), soff - 8)

/-- `X86CodeGenerator::compile_expr`.  Emission order follows the source
exactly: binary operations compile the right operand, push RAX, compile the
left operand, pop RCX, then dispatch on the operator (`Mod`, `NotEqual`,
`LessEq`, `GreaterEq` fall into the unsupported-operation arm); conditionals
emit `test`, a `jz` placeholder, the true branch, a `jmp` placeholder, patch
the `jz`, the false branch, then patch the `jmp`. -/
def compileExpr : Expr → CGState → Except CodeGenError CGState
  | .number n, st => .ok { st with code := st.code ++ [.movRaxImm n] }
  | .var name, st =>
    match envGet st.vars name with
    | some off => .ok { st with code := st.code ++ [.movRaxStack off] }
    | none => .error (.undefinedVariable name)
  | .binary l op r, st =>
    match compileExpr r st with
    | .error er => .error er
    | .ok st₁ =>
      let st₂ : CGState := { st₁ with code := st₁.code ++ [.pushRax] }
      match compileExpr l st₂ with
      | .error er => .error er
      | .ok st₃ =>
        let st₄ : CGState := { st₃ with code := st₃.code ++ [.popRcx] }
        match op with
        | .add => .ok { st₄ with code := st₄.code ++ [.addRaxRcx] }
        | .sub => .ok { st₄ with code := st₄.code ++ [.subRaxRcx] }
        | .mul => .ok { st₄ with code := st₄.code ++ [.mulRaxRcx] }
        | .div => .ok { st₄ with code := st₄.code ++ [.xorRdxRdx, .divRcx] }
        | .equal => .ok { st₄ with code := st₄.code ++ [.cmpRaxRcx, .sete, .movzxRaxAl] }
        | .less => .ok { st₄ with code := st₄.code ++ [.cmpRaxRcx, .setl, .movzxRaxAl] }
        | .greater => .ok { st₄ with code := st₄.code ++ [.cmpRaxRcx, .setg, .movzxRaxAl] }
        | op => .error (.unsupportedBinaryOperation op)
  | .assignment name value, st =>
    match compileExpr value st with
    | .error er => .error er
    | .ok st₁ =>
      let alloc := allocateVariable st₁.vars st₁.stack_offset name
      .ok { code := st₁.code ++ [.movStackRax alloc.1],
            vars := alloc.2.1, stack_offset := alloc.2.2 }
  | .ifExpr c tE fE, st =>
    match compileExpr c st with
    | .error er => .error er
    | .ok st₁ =>
      let st₂ : CGState := { st₁ with code := st₁.code ++ [.testRax] }
      let falseJumpPos := st₂.code.length
      let st₃ : CGState := { st₂ with code := st₂.code ++ [.jz 0] }
      match compileExpr tE st₃ with
      | .error er => .error er
      | .ok st₄ =>
        let endJumpPos := st₄.code.length
        let st₅ : CGState := { st₄ with code := st₄.code ++ [.jmp 0] }
        let falseLabelPos := st₅.code.length
        let st₆ : CGState := { st₅ with code := patchJump st₅.code falseJumpPos falseLabelPos }
        match compileExpr fE st₆ with
        | .error er => .error er
        | .ok st₇ =>
          let endLabelPos := st₇.code.length
          .ok { st₇ with code := patchJump st₇.code endJumpPos endLabelPos }
  | .functionCall _ _, _ => .error .unsupportedExpressionType

/-- `CompiledFunction` of `jit/codegen.rs`. -/
structure CompiledFunction where
  code : List Instr
  entry_point : Nat
  vars : List (String × Int)
deriving DecidableEq

/-- `X86CodeGenerator::generate`: reset the generator state, emit the
prologue, compile the expression, emit the epilogue. -/
def generate (e : Expr) : Except CodeGenError CompiledFunction :=
  let st₁ : CGState := { code := [.pushRbp, .movRbpRsp], vars := [], stack_offset := 0 }
  match compileExpr e st₁ with
  | .error er => .error er
  | .ok st₂ => .ok ⟨st₂.code ++ [.movRspRbp, .popRbp, .ret], 0, st₂.vars⟩

/-- `JitEntry` of `jit/mod.rs`. -/
structure JitEntry where
  expr_hash : Nat
  execution_count : Nat
  compiled_function : Option CompiledFunction
deriving DecidableEq

/-- `JitStats` of `ast/mod.rs`. -/
structure JitStats where
  total_executions : Nat
  jit_compilations : Nat
  total_execution_time_ns : Nat
  total_compilation_time_ns : Nat
  hot_functions : List (String × Nat)
deriving DecidableEq

/-- `JitStats::default`. -/
def JitStats.init : JitStats := ⟨0, 0, 0, 0, []⟩

/-- The mutable state of `JitCompiler`: statistics, threshold, the
interpreter's environment, the JIT cache (list order = hash-map iteration
order) and the cache capacity. -/
structure JitCompiler where
  stats : JitStats
  hot_threshold : Nat
  env : Environment
  jit_cache : List JitEntry
  max_cache_size : Nat
deriving DecidableEq

/-- `JitCompiler::new`: threshold 5, capacity 100. -/
def JitCompiler.new : JitCompiler := ⟨JitStats.init, 5, [], [], 100⟩

/-- Mixing step of the structural hash. -/
def hashCombine (a b : Nat) : Nat := a * 1000003 + b

/-- Hash of an operator tag. -/
def hashOp : BinaryOp → Nat
  | .add => 10 | .sub => 11 | .mul => 12 | .div => 13 | .mod => 14 | .equal => 15
  | .notEqual => 16 | .less => 17 | .greater => 18 | .lessEq => 19 | .greaterEq => 20

/-- Hash of a string (variable and function names). -/
def hashString (s : String) : Nat :=
  s.data.foldl (fun h c => hashCombine h c.toNat) 7

mutual
/-- `JitCompiler::hash_expr`, modelled as a deterministic structural hash
(the source hashes the `Debug` string with `DefaultHasher`; the theorems
only use that the fingerprint is a deterministic function of structure). -/
def hashExpr : Expr → Nat
  | .number n => hashCombine 1 (if 0 ≤ n then 2 * n.toNat else 2 * (-n).toNat + 1)
  | .var s => hashCombine 2 (hashString s)
  | .binary l op r =>
    hashCombine 3 (hashCombine (hashOp op) (hashCombine (hashExpr l) (hashExpr r)))
  | .assignment n v => hashCombine 4 (hashCombine (hashString n) (hashExpr v))
  | .functionCall n args => hashCombine 5 (hashCombine (hashString n) (hashExprList args))
  | .ifExpr c t f =>
    hashCombine 6 (hashCombine (hashExpr c) (hashCombine (hashExpr t) (hashExpr f)))

/-- Structural hash of an argument list. -/
def hashExprList : List Expr → Nat
  | [] => 0
  | a :: rest => hashCombine (hashExpr a) (hashExprList rest)
end


/-- `jit_cache.get(&h)` / `get_mut`: first entry with the given fingerprint
in iteration order. -/
def cacheFind (h : Nat) : List JitEntry → Option JitEntry
  | [] => none
  | en :: rest => if en.expr_hash = h then some en else cacheFind h rest

/-- In-place value update through `get_mut`: the entry keeps its position in
iteration order. -/
def cacheUpdate (h : Nat) (e' : JitEntry) : List JitEntry → List JitEntry
  | [] => []
  | en :: rest => if en.expr_hash = h then e' :: rest else en :: cacheUpdate h e' rest

/-- `jit_cache.remove(&h)`. -/
def cacheRemove (h : Nat) : List JitEntry → List JitEntry
  | [] => []
  | en :: rest => if en.expr_hash = h then rest else en :: cacheRemove h rest

/-- Tail of `jit_cache.iter().min_by_key(|(_, entry)| entry.execution_count)`:
keep the first minimum in iteration order. -/
def minByCountAux (best : JitEntry) : List JitEntry → JitEntry
  | [] => best
  | en :: rest =>
    minByCountAux (if en.execution_count < best.execution_count then en else best) rest

/-- `min_by_key` over the cache in iteration order. -/
def minByCount : List JitEntry → Option JitEntry
  | [] => none
  | en :: rest => some (minByCountAux en rest)

/-- `JitCompiler::is_jit_compilable`. -/
def isJitCompilable : Expr → Bool
  | .number _ => true
  | .var _ => true
  | .binary left _ right => isJitCompilable left && isJitCompilable right
  | .assignment _ value => isJitCompilable value
  | .ifExpr condition true_expr false_expr =>
    isJitCompilable condition && (isJitCompilable true_expr && isJitCompilable false_expr)
  | .functionCall _ _ => false

/-- Lines 103-130 of `jit/mod.rs` (`JitCompiler::execute`): bump or create
the cache entry, evicting the entry with minimal execution count when a new
fingerprint meets a full cache; returns the `should_jit` flag. -/
def cacheRecord (expr_hash : Nat) (is_compilable : Bool) (s : JitCompiler) :
    Bool × JitCompiler :=
  match cacheFind expr_hash s.jit_cache with
  | some entry =>
    let entry' : JitEntry := { entry with execution_count := entry.execution_count + 1 }
    (is_compilable && (decide (entry'.execution_count ≥ s.hot_threshold) &&
        entry'.compiled_function.isNone),
     { s with jit_cache := cacheUpdate expr_hash entry' s.jit_cache })
  | none =>
    let cache₁ :=
      if s.jit_cache.length ≥ s.max_cache_size then
        match minByCount s.jit_cache with
        | some oldest => cacheRemove oldest.expr_hash s.jit_cache
        | none => s.jit_cache
      else s.jit_cache
    (false, { s with jit_cache := cache₁ ++ [⟨expr_hash, 1, none⟩] })

/-- Lines 133-167 of `jit/mod.rs`: when a hotspot was detected, run the code
generator; on success record compilation statistics (with measured duration
`ct`) and install the artifact, on failure only log (the entry is left
unchanged). -/
def compilePhase (e : Expr) (expr_hash : Nat) (should_jit : Bool) (ct : Nat)
    (s : JitCompiler) : JitCompiler :=
  if should_jit then
    match generate e with
    | .ok cf =>
      let s₁ : JitCompiler :=
        { s with stats :=
            { s.stats with
                jit_compilations := s.stats.jit_compilations + 1,
                total_compilation_time_ns := s.stats.total_compilation_time_ns + ct } }
      match cacheFind expr_hash s₁.jit_cache with
      | some entry =>
        { s₁ with jit_cache :=
            cacheUpdate expr_hash { entry with compiled_function := some cf } s₁.jit_cache }
      | none => s₁
    | .error _ => s
  else s

/-- Lines 170-193 of `jit/mod.rs`: execute through the "compiled" path when
an artifact is installed (which delegates to `evaluate_without_delay` and
marks the result as JIT-compiled), otherwise through `Interpreter::evaluate`. -/
def runPhase (e : Expr) (expr_hash : Nat) (t : Nat) (s : JitCompiler) :
    (Except EvalError ExecutionResult) × JitCompiler :=
  match cacheFind expr_hash s.jit_cache with
  | some entry =>
    match entry.compiled_function with
    | some _ =>
      match evaluateWithoutDelay t e s.env with
      | (.ok r, env') =>
        (.ok { r with compilation_time_ns := none, was_jit_compiled := true },
         { s with env := env' })
      | (.error er, env') => (.error er, { s with env := env' })
    | none =>
      match evaluate t e s.env with
      | (.ok r, env') => (.ok r, { s with env := env' })
      | (.error er, env') => (.error er, { s with env := env' })
  | none =>
    match evaluate t e s.env with
    | (.ok r, env') => (.ok r, { s with env := env' })
    | (.error er, env') => (.error er, { s with env := env' })

/-- Lines 196-209 of `jit/mod.rs`: update `total_executions` and
`total_execution_time_ns`, then clamp the reported time of a JIT-compiled
result to 10 µs.  On the error path the `?` operator has already returned,
so the statistics are left untouched. -/
def statsPhase (r : ExecutionResult) (s : JitCompiler) :
    ExecutionResult × JitCompiler :=
  let s' : JitCompiler :=
    { s with stats :=
        { s.stats with
            total_executions := s.stats.total_executions + 1,
            total_execution_time_ns :=
              s.stats.total_execution_time_ns + r.execution_time_ns } }
  let r' := if r.was_jit_compiled then { r with execution_time_ns := min r.execution_time_ns 10000 } else r
  (r', s')

/-- `JitCompiler::execute` with the two measured durations supplied as
oracles (`t` = evaluation time, `ct` = compilation time). -/
def execute (e : Expr) (t ct : Nat) (s : JitCompiler) :
    (Except EvalError ExecutionResult) × JitCompiler :=
  let expr_hash := hashExpr e
  let is_compilable := isJitCompilable e
  let rec₁ := cacheRecord expr_hash is_compilable s
  let s₂ := compilePhase e expr_hash rec₁.1 ct rec₁.2
  match runPhase e expr_hash t s₂ with
  | (.error er, s₃) => (.error er, s₃)
  | (.ok r, s₃) =>
    let fin := statsPhase r s₃
    (.ok fin.1, fin.2)

/-- The state reached after one call to `execute`. -/
def execState (e : Expr) (t ct : Nat) (s : JitCompiler) : JitCompiler :=
  (execute e t ct s).2

/-- State after `n` submissions of the same expression to a fresh compiler. -/
def submitTrace (e : Expr) (t ct : Nat) : Nat → JitCompiler
  | 0 => JitCompiler.new
  | n + 1 => execState e t ct (submitTrace e t ct n)

/-- The `should_jit` flag computed during a submission of `e` in state `s`;
the code generator is invoked during that submission iff this flag is true. -/
def shouldJitAt (e : Expr) (s : JitCompiler) : Bool :=
  (cacheRecord (hashExpr e) (isJitCompilable e) s).1

/-- `JitCompiler::reset_stats`: clears the statistics, the JIT cache and
(via `Interpreter::reset`) the variable environment. -/
def resetStats (s : JitCompiler) : JitCompiler :=
  { s with stats := JitStats.init, jit_cache := [], env := [] }

/-- Net stack effect of one instruction: pushes count +1, pops count -1. -/
def stackEff : Instr → Int
  | .pushRbp => 1
  | .pushRax => 1
  | .popRbp => -1
  | .popRcx => -1
  | _ => 0

/-- Instructions that fall through to the next position (neither jump nor
return). -/
def plainInstr : Instr → Prop
  | .jz _ => False
  | .jmp _ => False
  | .ret => False
  | _ => True

/-- One step of the static simulation of an instruction stream: a program
counter plus the current operand-stack depth (pushes executed minus pops
executed).  `jz` is nondeterministic, covering every execution path. -/
inductive ExecStep (F : List Instr) : Nat × Int → Nat × Int → Prop where
  | next {p : Nat} {d : Int} {i : Instr} :
      F.get? p = some i → plainInstr i → ExecStep F (p, d) (p + 1, d + stackEff i)
  | jzTaken {p : Nat} {d : Int} {tg : Nat} :
      F.get? p = some (.jz tg) → ExecStep F (p, d) (tg, d)
  | jzFall {p : Nat} {d : Int} {tg : Nat} :
      F.get? p = some (.jz tg) → ExecStep F (p, d) (p + 1, d)
  | jmpJump {p : Nat} {d : Int} {tg : Nat} :
      F.get? p = some (.jmp tg) → ExecStep F (p, d) (tg, d)

/-- Reachability in the static simulation. -/
def ExecReach (F : List Instr) : Nat × Int → Nat × Int → Prop :=
  Relation.ReflTransGen (ExecStep F)

/-- `F` contains the instructions of `Δ` starting at position `a`. -/
def SubAgree (F : List Instr) (a : Nat) (Δ : List Instr) : Prop :=
  ∀ j, j < Δ.length → F.get? (a + j) = Δ.get? j

/-- Local correctness of a depth annotation `A` at position `p` of the
segment `[a, c)` of `F`: the instruction at `p` stays inside `[a, c]` and
transforms annotated depths accordingly; no `ret` occurs inside the segment. -/
def StepSpec (F : List Instr) (a c : Nat) (A : Nat → Int) (p : Nat) : Prop :=
  ∃ i, F.get? p = some i ∧
    match i with
    | .ret => False
    | .jz tg => a ≤ tg ∧ tg ≤ c ∧ A tg = A p ∧ p + 1 ≤ c ∧ A (p + 1) = A p
    | .jmp tg => a ≤ tg ∧ tg ≤ c ∧ A tg = A p
    | i => p + 1 ≤ c ∧ A (p + 1) = A p + stackEff i

/-- `A` is a consistent depth annotation for the whole segment `[a, c)`. -/
def SegA (F : List Instr) (a c : Nat) (A : Nat → Int) : Prop :=
  a ≤ c ∧ ∀ p, a ≤ p → p < c → StepSpec F a c A p

lemma subAgree_append_left {F : List Instr} {a : Nat} {Δ₁ Δ₂ : List Instr}
    (h : SubAgree F a (Δ₁ ++ Δ₂)) : SubAgree F a Δ₁ := by
  intro j hj
  have hj' : j < (Δ₁ ++ Δ₂).length := by simp [List.length_append]; omega
  have := h j hj'
  rwa [List.get?_append hj] at this

lemma subAgree_append_right {F : List Instr} {a : Nat} {Δ₁ Δ₂ : List Instr}
    (h : SubAgree F a (Δ₁ ++ Δ₂)) : SubAgree F (a + Δ₁.length) Δ₂ := by
  intro j hj
  have hj' : Δ₁.length + j < (Δ₁ ++ Δ₂).length := by simp [List.length_append]; omega
  have := h (Δ₁.length + j) hj'
  rw [List.get?_append_right (by omega)] at this
  simpa [Nat.add_assoc, Nat.add_sub_cancel_left] using this

lemma subAgree_head {F : List Instr} {a : Nat} {i : Instr} {Δ : List Instr}
    (h : SubAgree F a (i :: Δ)) : F.get? a = some i := by
  have := h 0 (by simp)
  simpa using this

lemma subAgree_tail {F : List Instr} {a : Nat} {i : Instr} {Δ : List Instr}
    (h : SubAgree F a (i :: Δ)) : SubAgree F (a + 1) Δ := by
  intro j hj
  have := h (j + 1) (by simp; omega)
  simpa [Nat.add_comm, Nat.add_left_comm, Nat.add_assoc] using this

/-- Re-annotate and widen a step specification: if `A'` equals `A + k` on
the closed sub-range, the specification transfers to the larger range. -/
lemma stepSpec_embed {F : List Instr} {a b : Nat} {A : Nat → Int} {p : Nat}
    (h : StepSpec F a b A p) {a' c : Nat} {A' : Nat → Int} (k : Int)
    (hag : ∀ x, a ≤ x → x ≤ b → A' x = A x + k)
    (ha : a ≤ p) (hb : p < b) (ha' : a' ≤ a) (hc : b ≤ c) :
    StepSpec F a' c A' p := by
  obtain ⟨i, hi, hrest⟩ := h
  refine ⟨i, hi, ?_⟩
  have eP : A' p = A p + k := hag p ha (by omega)
  cases i
  case ret => exact hrest
  case jz tg =>
    obtain ⟨h1, h2, h3, h4, h5⟩ := hrest
    have eT : A' tg = A tg + k := hag tg h1 h2
    have eS : A' (p + 1) = A (p + 1) + k := hag (p + 1) (by omega) h4
    exact ⟨by omega, by omega, by omega, by omega, by omega⟩
  case jmp tg =>
    obtain ⟨h1, h2, h3⟩ := hrest
    have eT : A' tg = A tg + k := hag tg h1 h2
    exact ⟨by omega, by omega, by omega⟩
  all_goals {
    obtain ⟨h1, h2⟩ := hrest
    have eS : A' (p + 1) = A (p + 1) + k := hag (p + 1) (by omega) h1
    exact ⟨by omega, by omega⟩ }

/-- A fall-through instruction satisfies the step specification as soon as
its successor stays in range and the annotation absorbs its stack effect. -/
lemma stepSpec_plain {F : List Instr} {a c : Nat} {A : Nat → Int} {p : Nat} {i : Instr}
    (hi : F.get? p = some i) (hplain : plainInstr i)
    (h1 : p + 1 ≤ c) (h2 : A (p + 1) = A p + stackEff i) :
    StepSpec F a c A p := by
  refine ⟨i, hi, ?_⟩
  cases i <;> first
    | exact hplain.elim
    | exact ⟨h1, h2⟩

/-- Widen the range of a step specification (same annotation). -/
lemma stepSpec_mono {F : List Instr} {a b : Nat} {A : Nat → Int} {p : Nat}
    (h : StepSpec F a b A p) {a' c : Nat} (ha' : a' ≤ a) (hc : b ≤ c) :
    StepSpec F a' c A p := by
  obtain ⟨i, hi, hrest⟩ := h
  refine ⟨i, hi, ?_⟩
  cases i
  case ret => exact hrest
  case jz tg =>
    obtain ⟨h1, h2, h3, h4, h5⟩ := hrest
    exact ⟨by omega, by omega, h3, by omega, h5⟩
  case jmp tg =>
    obtain ⟨h1, h2, h3⟩ := hrest
    exact ⟨by omega, by omega, h3⟩
  all_goals exact ⟨by omega, hrest.2⟩

/-- A straight-line run of effect-free fall-through instructions under a
locally constant annotation forms a segment. -/
lemma segA_straight {F : List Instr} {Δ : List Instr} {a : Nat} {A : Nat → Int}
    (hall : ∀ i ∈ Δ, plainInstr i ∧ stackEff i = 0)
    (hag : SubAgree F a Δ)
    (hA : ∀ x, a ≤ x → x ≤ a + Δ.length → A x = A a) :
    SegA F a (a + Δ.length) A := by
  induction Δ generalizing a with
  | nil =>
    exact ⟨by omega, fun p h1 h2 => absurd h2 (by simp only [List.length_nil]; omega)⟩
  | cons i Δ' ih =>
    have hi := subAgree_head hag
    have htail := subAgree_tail hag
    obtain ⟨hplain, heff⟩ := hall i (by simp)
    have hrest : ∀ j ∈ Δ', plainInstr j ∧ stackEff j = 0 := fun j hj => hall j (by simp [hj])
    have hA' : ∀ x, a + 1 ≤ x → x ≤ a + 1 + Δ'.length → A x = A (a + 1) := by
      intro x h1 h2
      have e1 : A x = A a := hA x (by omega) (by simp only [List.length_cons]; omega)
      have e2 : A (a + 1) = A a := hA (a + 1) (by omega) (by simp only [List.length_cons]; omega)
      omega
    have hseg := ih hrest htail hA'
    refine ⟨by simp only [List.length_cons]; omega, ?_⟩
    intro p hp1 hp2
    rcases Nat.eq_or_lt_of_le hp1 with he | hlt
    · subst he
      have e1 : A (a + 1) = A a := hA (a + 1) (by omega) (by simp only [List.length_cons]; omega)
      refine stepSpec_plain hi hplain (by simp only [List.length_cons]; omega) (by omega)
    · have hp2' : p < a + 1 + Δ'.length := by
        simp only [List.length_cons] at hp2; omega
      exact stepSpec_mono (hseg.2 p (by omega) hp2') (by omega)
        (by simp only [List.length_cons]; omega)

lemma patchJump_length (l : List Instr) (n tg : Nat) :
    (patchJump l n tg).length = l.length := by
  induction l generalizing n with
  | nil => rfl
  | cons i rest ih =>
    cases n with
    | zero => simp [patchJump]
    | succ m => simp [patchJump, ih]

lemma patchJump_append (l₁ l₂ : List Instr) (k tg : Nat) :
    patchJump (l₁ ++ l₂) (l₁.length + k) tg = l₁ ++ patchJump l₂ k tg := by
  induction l₁ with
  | nil => simp
  | cons i rest ih =>
    have : rest.length + 1 + k = (rest.length + k) + 1 := by omega
    simp only [List.cons_append, List.length_cons, this, patchJump, ih]

/-- Piecewise depth annotation for a binary-operation segment:
`[a, b₁)` right operand (depth from `Ar`), `b₁` the push, `(b₁, b₂]` left
operand shifted one deeper (`Al + 1`, with the pop at `b₂`), beyond `b₂`
the operator instructions at depth 0. -/
def binAnnot (b₁ b₂ : Nat) (Ar Al : Nat → Int) (p : Nat) : Int :=
  if p < b₁ then Ar p else if p = b₁ then 0 else if p ≤ b₂ then Al p + 1 else 0

lemma binAnnot_low {b₁ b₂ : Nat} {Ar Al : Nat → Int} {p : Nat} (h : p < b₁) :
    binAnnot b₁ b₂ Ar Al p = Ar p := by
  unfold binAnnot; rw [if_pos h]

lemma binAnnot_push {b₁ b₂ : Nat} {Ar Al : Nat → Int} {p : Nat} (h : p = b₁) :
    binAnnot b₁ b₂ Ar Al p = 0 := by
  unfold binAnnot; rw [if_neg (by omega), if_pos h]

lemma binAnnot_mid {b₁ b₂ : Nat} {Ar Al : Nat → Int} {p : Nat}
    (h1 : b₁ < p) (h2 : p ≤ b₂) :
    binAnnot b₁ b₂ Ar Al p = Al p + 1 := by
  unfold binAnnot; rw [if_neg (by omega), if_neg (by omega), if_pos h2]

lemma binAnnot_high {b₁ b₂ : Nat} {Ar Al : Nat → Int} {p : Nat}
    (hb : b₁ ≤ b₂) (h : b₂ < p) :
    binAnnot b₁ b₂ Ar Al p = 0 := by
  unfold binAnnot; rw [if_neg (by omega), if_neg (by omega), if_neg (by omega)]

/-- Assemble the segment annotation for a binary operation: right operand,
push, left operand, pop, then the operator instructions. -/
lemma binary_segment {F : List Instr} {a : Nat} {Δr Δl ops : List Instr}
    {Ar Al : Nat → Int}
    (hops : ∀ i ∈ ops, plainInstr i ∧ stackEff i = 0)
    (hpush : F.get? (a + Δr.length) = some .pushRax)
    (hpop : F.get? (a + Δr.length + 1 + Δl.length) = some .popRcx)
    (hagops : SubAgree F (a + Δr.length + 1 + Δl.length + 1) ops)
    (hAr0 : Ar a = 0) (hArE : Ar (a + Δr.length) = 0)
    (hArS : SegA F a (a + Δr.length) Ar)
    (hAl0 : Al (a + Δr.length + 1) = 0)
    (hAlE : Al (a + Δr.length + 1 + Δl.length) = 0)
    (hAlS : SegA F (a + Δr.length + 1) (a + Δr.length + 1 + Δl.length) Al) :
    ∃ A : Nat → Int, A a = 0 ∧
      A (a + Δr.length + 1 + Δl.length + 1 + ops.length) = 0 ∧
      SegA F a (a + Δr.length + 1 + Δl.length + 1 + ops.length) A := by
  set b₁ := a + Δr.length with hb₁
  set b₂ := a + Δr.length + 1 + Δl.length with hb₂
  refine ⟨binAnnot b₁ b₂ Ar Al, ?_, ?_, ?_⟩
  · rcases Nat.lt_or_ge a b₁ with h | h
    · rw [binAnnot_low h]; exact hAr0
    · have he : a = b₁ := by omega
      rw [binAnnot_push he]
  · rw [binAnnot_high (by omega) (by omega)]
  · refine ⟨by omega, ?_⟩
    intro p hp1 hp2
    rcases Nat.lt_or_ge p b₁ with h1 | h1
    · refine stepSpec_embed (hArS.2 p hp1 h1) 0 ?_ hp1 h1 (Nat.le_refl a) (by omega)
      intro x hx1 hx2
      rcases Nat.lt_or_ge x b₁ with hx | hx
      · rw [binAnnot_low hx]; omega
      · have hxe : x = b₁ := by omega
        rw [binAnnot_push hxe, hxe, hArE]
        omega
    rcases Nat.eq_or_lt_of_le h1 with h2 | h2
    · have ev1 : binAnnot b₁ b₂ Ar Al p = 0 := binAnnot_push h2.symm
      have ev2 : binAnnot b₁ b₂ Ar Al (p + 1) = Al (p + 1) + 1 :=
        binAnnot_mid (by omega) (by omega)
      have e2 : p + 1 = b₁ + 1 := by omega
      refine stepSpec_plain (h2 ▸ hpush) (by trivial) (by omega) ?_
      rw [ev1, ev2, e2, hAl0]
      rfl
    rcases Nat.lt_or_ge p b₂ with h3 | h3
    · refine stepSpec_embed (hAlS.2 p (by omega) h3) 1 ?_ (by omega) h3 (by omega) (by omega)
      intro x hx1 hx2
      rw [binAnnot_mid (by omega) hx2]
    rcases Nat.eq_or_lt_of_le h3 with h4 | h4
    · have ev1 : binAnnot b₁ b₂ Ar Al p = Al p + 1 := binAnnot_mid (by omega) (by omega)
      have ev2 : binAnnot b₁ b₂ Ar Al (p + 1) = 0 := binAnnot_high (by omega) (by omega)
      have e2 : p = b₂ := by omega
      refine stepSpec_plain (h4 ▸ hpop) (by trivial) (by omega) ?_
      rw [ev1, ev2, e2, hAlE]
      rfl
    · have hstraight : SegA F (b₂ + 1) (b₂ + 1 + ops.length) (binAnnot b₁ b₂ Ar Al) :=
        segA_straight hops hagops
          (fun x hx1 hx2 => by
            rw [binAnnot_high (by omega) (by omega), binAnnot_high (by omega) (by omega)])
      exact stepSpec_mono (hstraight.2 p (by omega) (by omega)) (by omega) (by omega)

/-- Piecewise depth annotation for a conditional segment: condition code,
`test`/`jz` glue at depth 0, true branch, `jmp` glue, false branch; every
piece starts and ends at depth 0. -/
def ifAnnot (a₁ a₃ a₅ : Nat) (Ac At Af : Nat → Int) (p : Nat) : Int :=
  if p < a₁ then Ac p else if p < a₃ then 0 else if p < a₅ then At p else Af p

lemma ifAnnot_c {a₁ a₃ a₅ : Nat} {Ac At Af : Nat → Int} {p : Nat} (h : p < a₁) :
    ifAnnot a₁ a₃ a₅ Ac At Af p = Ac p := by
  unfold ifAnnot; rw [if_pos h]

lemma ifAnnot_mid {a₁ a₃ a₅ : Nat} {Ac At Af : Nat → Int} {p : Nat}
    (h1 : a₁ ≤ p) (h2 : p < a₃) :
    ifAnnot a₁ a₃ a₅ Ac At Af p = 0 := by
  unfold ifAnnot; rw [if_neg (by omega), if_pos h2]

lemma ifAnnot_t {a₁ a₃ a₅ : Nat} {Ac At Af : Nat → Int} {p : Nat}
    (ha : a₁ ≤ a₃) (h1 : a₃ ≤ p) (h2 : p < a₅) :
    ifAnnot a₁ a₃ a₅ Ac At Af p = At p := by
  unfold ifAnnot; rw [if_neg (by omega), if_neg (by omega), if_pos h2]

lemma ifAnnot_f {a₁ a₃ a₅ : Nat} {Ac At Af : Nat → Int} {p : Nat}
    (ha : a₁ ≤ a₃) (hb : a₃ ≤ a₅) (h : a₅ ≤ p) :
    ifAnnot a₁ a₃ a₅ Ac At Af p = Af p := by
  unfold ifAnnot; rw [if_neg (by omega), if_neg (by omega), if_neg (by omega)]

/-- Assemble the segment annotation for a conditional: condition, `test`,
a `jz` to the false branch, the true branch, a `jmp` to the end, the false
branch. -/
lemma ifExpr_segment {F : List Instr} {a : Nat} {Δc Δt Δf : List Instr}
    {Ac At Af : Nat → Int}
    (htest : F.get? (a + Δc.length) = some .testRax)
    (hjz : F.get? (a + Δc.length + 1) =
      some (.jz (a + Δc.length + 2 + Δt.length + 1)))
    (hjmp : F.get? (a + Δc.length + 2 + Δt.length) =
      some (.jmp (a + Δc.length + 2 + Δt.length + 1 + Δf.length)))
    (hAc0 : Ac a = 0) (hAcE : Ac (a + Δc.length) = 0)
    (hAcS : SegA F a (a + Δc.length) Ac)
    (hAt0 : At (a + Δc.length + 2) = 0)
    (hAtE : At (a + Δc.length + 2 + Δt.length) = 0)
    (hAtS : SegA F (a + Δc.length + 2) (a + Δc.length + 2 + Δt.length) At)
    (hAf0 : Af (a + Δc.length + 2 + Δt.length + 1) = 0)
    (hAfE : Af (a + Δc.length + 2 + Δt.length + 1 + Δf.length) = 0)
    (hAfS : SegA F (a + Δc.length + 2 + Δt.length + 1)
      (a + Δc.length + 2 + Δt.length + 1 + Δf.length) Af) :
    ∃ A : Nat → Int, A a = 0 ∧
      A (a + Δc.length + 2 + Δt.length + 1 + Δf.length) = 0 ∧
      SegA F a (a + Δc.length + 2 + Δt.length + 1 + Δf.length) A := by
  set a₁ := a + Δc.length with ha₁
  set a₃ := a + Δc.length + 2 with ha₃
  set a₅ := a + Δc.length + 2 + Δt.length + 1 with ha₅
  have hha : a₁ ≤ a₃ := by omega
  have hhb : a₃ ≤ a₅ := by omega
  refine ⟨ifAnnot a₁ a₃ a₅ Ac At Af, ?_, ?_, ?_⟩
  · rcases Nat.lt_or_ge a a₁ with h | h
    · rw [ifAnnot_c h]; exact hAc0
    · rw [ifAnnot_mid h (by omega)]
  · rw [ifAnnot_f hha hhb (by omega)]
    exact hAfE
  · refine ⟨by omega, ?_⟩
    intro p hp1 hp2
    rcases Nat.lt_or_ge p a₁ with h1 | h1
    · refine stepSpec_embed (hAcS.2 p hp1 h1) 0 ?_ hp1 h1 (Nat.le_refl a) (by omega)
      intro x hx1 hx2
      rcases Nat.lt_or_ge x a₁ with hx | hx
      · rw [ifAnnot_c hx]; omega
      · have hxe : x = a₁ := by omega
        rw [ifAnnot_mid hx (by omega), hxe, hAcE]
        omega
    rcases Nat.eq_or_lt_of_le h1 with h2 | h2
    · have ev1 : ifAnnot a₁ a₃ a₅ Ac At Af p = 0 := ifAnnot_mid (by omega) (by omega)
      have ev2 : ifAnnot a₁ a₃ a₅ Ac At Af (p + 1) = 0 := ifAnnot_mid (by omega) (by omega)
      refine stepSpec_plain (h2 ▸ htest) (by trivial) (by omega) ?_
      rw [ev1, ev2]
      rfl
    rcases Nat.lt_or_ge p a₃ with h3 | h3
    · have hpe : p = a₁ + 1 := by omega
      have ev1 : ifAnnot a₁ a₃ a₅ Ac At Af p = 0 := ifAnnot_mid (by omega) (by omega)
      have ev2 : ifAnnot a₁ a₃ a₅ Ac At Af (p + 1) = At (p + 1) := by
        rw [ifAnnot_t hha (by omega) (by omega)]
      have ev3 : ifAnnot a₁ a₃ a₅ Ac At Af a₅ = Af a₅ := ifAnnot_f hha hhb (by omega)
      refine ⟨.jz a₅, hpe ▸ hjz, by omega, by omega, ?_, by omega, ?_⟩
      · rw [ev3, ev1, hAf0]
      · rw [ev2, ev1]
        have : p + 1 = a₃ := by omega
        rw [this, hAt0]
    rcases Nat.lt_or_ge p (a₃ + Δt.length) with h4 | h4
    · refine stepSpec_embed (hAtS.2 p h3 h4) 0 ?_ h3 h4 (by omega) (by omega)
      intro x hx1 hx2
      rcases Nat.lt_or_ge x (a₃ + Δt.length) with hx | hx
      · rw [ifAnnot_t hha hx1 (by omega)]; omega
      · have hxe : x = a₃ + Δt.length := by omega
        rw [ifAnnot_t hha hx1 (by omega), hxe, hAtE]
        omega
    rcases Nat.eq_or_lt_of_le h4 with h5 | h5
    · have ev1 : ifAnnot a₁ a₃ a₅ Ac At Af p = At p := ifAnnot_t hha (by omega) (by omega)
      have ev2 : ifAnnot a₁ a₃ a₅ Ac At Af (a₅ + Δf.length) = Af (a₅ + Δf.length) :=
        ifAnnot_f hha hhb (by omega)
      refine ⟨.jmp (a₅ + Δf.length), h5 ▸ hjmp, by omega, by omega, ?_⟩
      rw [ev2, ev1, ← h5, hAtE, hAfE]
    · refine stepSpec_embed (hAfS.2 p (by omega) hp2) 0 ?_ (by omega) hp2 (by omega)
        (by omega)
      intro x hx1 hx2
      rw [ifAnnot_f hha hhb hx1]
      omega

/-- Annotation for a segment extended by trailing depth-0 code. -/
def extAnnot (b : Nat) (Av : Nat → Int) (p : Nat) : Int := if p ≤ b then Av p else 0

lemma extAnnot_le {b : Nat} {Av : Nat → Int} {p : Nat} (h : p ≤ b) :
    extAnnot b Av p = Av p := by
  unfold extAnnot; rw [if_pos h]

lemma extAnnot_gt {b : Nat} {Av : Nat → Int} {p : Nat} (h : b < p) :
    extAnnot b Av p = 0 := by
  unfold extAnnot; rw [if_neg (by omega)]

/-- Packaged conclusion of the code-emission induction. -/
def EmitsBalanced (st st' : CGState) : Prop :=
  ∃ Δ : List Instr, st'.code = st.code ++ Δ ∧
    ∀ F : List Instr, SubAgree F st.code.length Δ →
      ∃ A : Nat → Int, A st.code.length = 0 ∧ A (st.code.length + Δ.length) = 0 ∧
        SegA F st.code.length (st.code.length + Δ.length) A

/-- A single fall-through, stack-neutral instruction forms a balanced
emission. -/
lemma emitsBalanced_single (st : CGState) (i : Instr) (st' : CGState)
    (hplain : plainInstr i) (heff : stackEff i = 0)
    (hcode : st'.code = st.code ++ [i]) : EmitsBalanced st st' := by
  refine ⟨[i], hcode, ?_⟩
  intro F hag
  refine ⟨fun _ => 0, rfl, rfl, ?_⟩
  have hstraight : SegA F st.code.length (st.code.length + [i].length) (fun _ => (0 : Int)) :=
    segA_straight (fun j hj => by simp at hj; subst hj; exact ⟨hplain, heff⟩) hag
      (fun x h1 h2 => rfl)
  simpa using hstraight

/-- The binary-operation case of the emission induction, for any trailing
operator instructions that are fall-through and stack-neutral. -/
lemma binary_case {st st₁ st₃ : CGState} {Δr Δl ops : List Instr}
    (hops : ∀ i ∈ ops, plainInstr i ∧ stackEff i = 0)
    (hcr : st₁.code = st.code ++ Δr)
    (hcl : st₃.code = (st₁.code ++ [Instr.pushRax]) ++ Δl)
    (hsr : ∀ F : List Instr, SubAgree F st.code.length Δr →
      ∃ A : Nat → Int, A st.code.length = 0 ∧ A (st.code.length + Δr.length) = 0 ∧
        SegA F st.code.length (st.code.length + Δr.length) A)
    (hsl : ∀ F : List Instr, SubAgree F (st₁.code ++ [Instr.pushRax]).length Δl →
      ∃ A : Nat → Int, A (st₁.code ++ [Instr.pushRax]).length = 0 ∧
        A ((st₁.code ++ [Instr.pushRax]).length + Δl.length) = 0 ∧
        SegA F (st₁.code ++ [Instr.pushRax]).length
          ((st₁.code ++ [Instr.pushRax]).length + Δl.length) A)
    {st' : CGState}
    (hcode : st'.code = (st₃.code ++ [Instr.popRcx]) ++ ops) :
    EmitsBalanced st st' := by
  have e2 : (st₁.code ++ [Instr.pushRax]).length = st.code.length + Δr.length + 1 := by
    simp only [hcr, List.length_append, List.length_cons, List.length_nil]
  rw [e2] at hsl
  refine ⟨Δr ++ ([Instr.pushRax] ++ (Δl ++ ([Instr.popRcx] ++ ops))), ?_, ?_⟩
  · rw [hcode, hcl, hcr]
    simp [List.append_assoc]
  intro F hag
  obtain ⟨Ar, hAr0, hArE, hArS⟩ := hsr F (subAgree_append_left hag)
  have hag2 := subAgree_append_right hag
  have hpush := subAgree_head hag2
  have hag3 : SubAgree F (st.code.length + Δr.length + 1) (Δl ++ ([Instr.popRcx] ++ ops)) := by
    simpa using subAgree_tail hag2
  obtain ⟨Al, hAl0, hAlE, hAlS⟩ := hsl F (subAgree_append_left hag3)
  have hag5 := subAgree_append_right hag3
  have hpush2 := subAgree_head hag5
  have hag6 : SubAgree F (st.code.length + Δr.length + 1 + Δl.length + 1) ops := by
    simpa using subAgree_tail hag5
  have hlen : st.code.length +
      (Δr ++ ([Instr.pushRax] ++ (Δl ++ ([Instr.popRcx] ++ ops)))).length =
      st.code.length + Δr.length + 1 + Δl.length + 1 + ops.length := by
    simp only [List.length_append, List.length_cons, List.length_nil]
    omega
  have hAlS' : SegA F (st.code.length + Δr.length + 1)
      (st.code.length + Δr.length + 1 + Δl.length) Al := hAlS
  obtain ⟨A, g1, g2, g3⟩ :=
    binary_segment hops hpush hpush2 hag6 hAr0 hArE hArS hAl0 hAlE hAlS'
  exact ⟨A, g1, by rw [hlen]; exact g2, by rw [hlen]; exact g3⟩

lemma patchJump_append_zero (l₁ l₂ : List Instr) (tg : Nat) :
    patchJump (l₁ ++ l₂) l₁.length tg = l₁ ++ patchJump l₂ 0 tg := by
  have h := patchJump_append l₁ l₂ 0 tg
  simpa using h

/-- The conditional case of the emission induction: derives the closed form
of the twice-patched instruction stream and assembles its annotation. -/
lemma if_case {st st₁ st₄ st₆ st₇ st' : CGState} {Δc Δt Δf : List Instr}
    (hcc : st₁.code = st.code ++ Δc)
    (hct : st₄.code = ((st₁.code ++ [Instr.testRax]) ++ [Instr.jz 0]) ++ Δt)
    (h6 : st₆.code = patchJump (st₄.code ++ [Instr.jmp 0])
      (st₁.code ++ [Instr.testRax]).length (st₄.code ++ [Instr.jmp 0]).length)
    (hcf : st₇.code = st₆.code ++ Δf)
    (hsc : ∀ F : List Instr, SubAgree F st.code.length Δc →
      ∃ A : Nat → Int, A st.code.length = 0 ∧ A (st.code.length + Δc.length) = 0 ∧
        SegA F st.code.length (st.code.length + Δc.length) A)
    (hst : ∀ F : List Instr,
      SubAgree F ((st₁.code ++ [Instr.testRax]) ++ [Instr.jz 0]).length Δt →
      ∃ A : Nat → Int, A ((st₁.code ++ [Instr.testRax]) ++ [Instr.jz 0]).length = 0 ∧
        A (((st₁.code ++ [Instr.testRax]) ++ [Instr.jz 0]).length + Δt.length) = 0 ∧
        SegA F ((st₁.code ++ [Instr.testRax]) ++ [Instr.jz 0]).length
          (((st₁.code ++ [Instr.testRax]) ++ [Instr.jz 0]).length + Δt.length) A)
    (hsf : ∀ F : List Instr, SubAgree F st₆.code.length Δf →
      ∃ A : Nat → Int, A st₆.code.length = 0 ∧ A (st₆.code.length + Δf.length) = 0 ∧
        SegA F st₆.code.length (st₆.code.length + Δf.length) A)
    (hcode : st'.code = patchJump st₇.code st₄.code.length st₇.code.length) :
    EmitsBalanced st st' := by
  have e1 : st₁.code.length = st.code.length + Δc.length := by
    simp [hcc]
  have e3 : ((st₁.code ++ [Instr.testRax]) ++ [Instr.jz 0]).length =
      st.code.length + Δc.length + 2 := by
    simp [e1] <;> omega
  have e4 : st₄.code.length = st.code.length + Δc.length + 2 + Δt.length := by
    rw [hct]
    simp [e3] <;> omega
  have htf : (st₄.code ++ [Instr.jmp 0]).length =
      st.code.length + Δc.length + 2 + Δt.length + 1 := by
    simp [e4]
  have e6 : st₆.code.length = st.code.length + Δc.length + 2 + Δt.length + 1 := by
    rw [h6, patchJump_length, htf]
  have e7 : st₇.code.length =
      st.code.length + Δc.length + 2 + Δt.length + 1 + Δf.length := by
    simp [hcf, e6]
  have hj : st₄.code ++ [Instr.jmp 0] =
      (st₁.code ++ [Instr.testRax]) ++
        ([Instr.jz 0] ++ (Δt ++ [Instr.jmp 0])) := by
    rw [hct]
    simp [List.append_assoc]
  have h6' : st₆.code =
      (st₁.code ++ [Instr.testRax]) ++
        ([Instr.jz (st.code.length + Δc.length + 2 + Δt.length + 1)] ++
          (Δt ++ [Instr.jmp 0])) := by
    rw [h6, ← htf, hj, patchJump_append_zero]
    rfl
  have hP : st₇.code =
      ((st₁.code ++ [Instr.testRax]) ++
        ([Instr.jz (st.code.length + Δc.length + 2 + Δt.length + 1)] ++ Δt)) ++
        ([Instr.jmp 0] ++ Δf) := by
    rw [hcf, h6']
    simp [List.append_assoc]
  have hPlen : (((st₁.code ++ [Instr.testRax]) ++
      ([Instr.jz (st.code.length + Δc.length + 2 + Δt.length + 1)] ++ Δt))).length =
      st₄.code.length := by
    simp [e1, e4] <;> omega
  have hshape : st'.code =
      ((st₁.code ++ [Instr.testRax]) ++
        ([Instr.jz (st.code.length + Δc.length + 2 + Δt.length + 1)] ++ Δt)) ++
        ([Instr.jmp (st.code.length + Δc.length + 2 + Δt.length + 1 + Δf.length)] ++ Δf) := by
    rw [hcode, ← e7, hP, ← hPlen, patchJump_append_zero]
    rfl
  refine ⟨Δc ++ ([Instr.testRax] ++
      ([Instr.jz (st.code.length + Δc.length + 2 + Δt.length + 1)] ++
        (Δt ++ ([Instr.jmp (st.code.length + Δc.length + 2 + Δt.length + 1 + Δf.length)] ++
          Δf)))), ?_, ?_⟩
  · rw [hshape, hcc]
    simp [List.append_assoc]
  intro F hag
  obtain ⟨Ac, hAc0, hAcE, hAcS⟩ := hsc F (subAgree_append_left hag)
  have hag2 := subAgree_append_right hag
  have htest := subAgree_head hag2
  have hag3 : SubAgree F (st.code.length + Δc.length + 1)
      ([Instr.jz (st.code.length + Δc.length + 2 + Δt.length + 1)] ++
        (Δt ++ ([Instr.jmp (st.code.length + Δc.length + 2 + Δt.length + 1 + Δf.length)] ++
          Δf))) := by
    simpa using subAgree_tail hag2
  have hjz := subAgree_head hag3
  have hag4 : SubAgree F (st.code.length + Δc.length + 2)
      (Δt ++ ([Instr.jmp (st.code.length + Δc.length + 2 + Δt.length + 1 + Δf.length)] ++
        Δf)) := by
    have h := subAgree_tail hag3
    have e : st.code.length + Δc.length + 1 + 1 = st.code.length + Δc.length + 2 := by omega
    rw [e] at h
    simpa using h
  rw [e3] at hst
  obtain ⟨At, hAt0, hAtE, hAtS⟩ := hst F (subAgree_append_left hag4)
  have hag5 := subAgree_append_right hag4
  have hjmp := subAgree_head hag5
  have hagf : SubAgree F (st.code.length + Δc.length + 2 + Δt.length + 1) Δf := by
    simpa using subAgree_tail hag5
  rw [e6] at hsf
  obtain ⟨Af, hAf0, hAfE, hAfS⟩ := hsf F hagf
  have hlen : st.code.length + (Δc ++ ([Instr.testRax] ++
      ([Instr.jz (st.code.length + Δc.length + 2 + Δt.length + 1)] ++
        (Δt ++ ([Instr.jmp (st.code.length + Δc.length + 2 + Δt.length + 1 + Δf.length)] ++
          Δf))))).length =
      st.code.length + Δc.length + 2 + Δt.length + 1 + Δf.length := by
    simp only [List.length_append, List.length_cons, List.length_nil]
    omega
  obtain ⟨A, g1, g2, g3⟩ := ifExpr_segment htest hjz hjmp hAc0 hAcE hAcS hAt0 hAtE hAtS
    hAf0 hAfE hAfS
  exact ⟨A, g1, by rw [hlen]; exact g2, by rw [hlen]; exact g3⟩

/-- Every successful `compile_expr` run appends a code block that carries a
consistent depth annotation beginning and ending at depth 0 (all jumps stay
inside the block, no `ret` occurs inside it). -/
theorem compileExpr_balanced (e : Expr) (st st' : CGState)
    (h : compileExpr e st = .ok st') : EmitsBalanced st st' := by
  match e with
  | .number n =>
    simp only [compileExpr] at h
    injection h with h'
    subst h'
    exact emitsBalanced_single st (Instr.movRaxImm n) _ True.intro rfl rfl
  | .var name =>
    cases hv : envGet st.vars name with
    | none => simp [compileExpr, hv] at h
    | some off =>
      simp only [compileExpr, hv] at h
      injection h with h'
      subst h'
      exact emitsBalanced_single st (Instr.movRaxStack off) _ True.intro rfl rfl
  | .functionCall name args =>
    simp only [compileExpr] at h
    exact Except.noConfusion h
  | .binary l op r =>
    cases hr : compileExpr r st with
    | error er => simp [compileExpr, hr] at h
    | ok st₁ =>
      cases hl : compileExpr l { st₁ with code := st₁.code ++ [Instr.pushRax] } with
      | error er => simp [compileExpr, hr, hl] at h
      | ok st₃ =>
        obtain ⟨Δr, hcr, hsr⟩ := compileExpr_balanced r st st₁ hr
        obtain ⟨Δl, hcl, hsl⟩ :=
          compileExpr_balanced l { st₁ with code := st₁.code ++ [Instr.pushRax] } st₃ hl
        cases op
        case add =>
          simp only [compileExpr, hr, hl] at h
          injection h with h'
          subst h'
          refine binary_case ?_ hcr hcl hsr hsl rfl
          intro i hi
          simp at hi
          subst hi
          exact ⟨True.intro, rfl⟩
        case sub =>
          simp only [compileExpr, hr, hl] at h
          injection h with h'
          subst h'
          refine binary_case ?_ hcr hcl hsr hsl rfl
          intro i hi
          simp at hi
          subst hi
          exact ⟨True.intro, rfl⟩
        case mul =>
          simp only [compileExpr, hr, hl] at h
          injection h with h'
          subst h'
          refine binary_case ?_ hcr hcl hsr hsl rfl
          intro i hi
          simp at hi
          subst hi
          exact ⟨True.intro, rfl⟩
        case div =>
          simp only [compileExpr, hr, hl] at h
          injection h with h'
          subst h'
          refine binary_case ?_ hcr hcl hsr hsl rfl
          intro i hi
          simp at hi
          rcases hi with rfl | rfl <;> exact ⟨True.intro, rfl⟩
        case equal =>
          simp only [compileExpr, hr, hl] at h
          injection h with h'
          subst h'
          refine binary_case ?_ hcr hcl hsr hsl rfl
          intro i hi
          simp at hi
          rcases hi with rfl | rfl | rfl <;> exact ⟨True.intro, rfl⟩
        case less =>
          simp only [compileExpr, hr, hl] at h
          injection h with h'
          subst h'
          refine binary_case ?_ hcr hcl hsr hsl rfl
          intro i hi
          simp at hi
          rcases hi with rfl | rfl | rfl <;> exact ⟨True.intro, rfl⟩
        case greater =>
          simp only [compileExpr, hr, hl] at h
          injection h with h'
          subst h'
          refine binary_case ?_ hcr hcl hsr hsl rfl
          intro i hi
          simp at hi
          rcases hi with rfl | rfl | rfl <;> exact ⟨True.intro, rfl⟩
        case mod => simp [compileExpr, hr, hl] at h
        case notEqual => simp [compileExpr, hr, hl] at h
        case lessEq => simp [compileExpr, hr, hl] at h
        case greaterEq => simp [compileExpr, hr, hl] at h
  | .assignment name value =>
    cases hv : compileExpr value st with
    | error er => simp [compileExpr, hv] at h
    | ok st₁ =>
      obtain ⟨Δv, hcv, hsv⟩ := compileExpr_balanced value st st₁ hv
      simp only [compileExpr, hv] at h
      injection h with h'
      subst h'
      refine ⟨Δv ++ [Instr.movStackRax (allocateVariable st₁.vars st₁.stack_offset name).1],
        ?_, ?_⟩
      · show st₁.code ++ [Instr.movStackRax (allocateVariable st₁.vars st₁.stack_offset name).1] =
          st.code ++ _
        rw [hcv]
        simp [List.append_assoc]
      intro F hag
      obtain ⟨Av, hAv0, hAvE, hAvS⟩ := hsv F (subAgree_append_left hag)
      have hmov := subAgree_head (subAgree_append_right hag)
      have hlen : st.code.length +
          (Δv ++ [Instr.movStackRax (allocateVariable st₁.vars st₁.stack_offset name).1]).length =
          st.code.length + Δv.length + 1 := by
        simp only [List.length_append, List.length_cons, List.length_nil]
        omega
      refine ⟨extAnnot (st.code.length + Δv.length) Av, ?_, ?_, ?_⟩
      · rw [extAnnot_le (by omega)]
        exact hAv0
      · rw [hlen, extAnnot_gt (by omega)]
      · rw [hlen]
        refine ⟨by omega, ?_⟩
        intro p hp1 hp2
        rcases Nat.lt_or_ge p (st.code.length + Δv.length) with h1 | h1
        · refine stepSpec_embed (hAvS.2 p hp1 h1) 0 ?_ hp1 h1 (Nat.le_refl _) (by omega)
          intro x hx1 hx2
          rw [extAnnot_le hx2]
          omega
        · have h2 : p = st.code.length + Δv.length := by omega
          have hmov' : F.get? p =
              some (Instr.movStackRax (allocateVariable st₁.vars st₁.stack_offset name).1) := by
            rw [h2]; exact hmov
          have ev1 : extAnnot (st.code.length + Δv.length) Av (p + 1) = 0 :=
            extAnnot_gt (by omega)
          have ev2 : extAnnot (st.code.length + Δv.length) Av p = Av p :=
            extAnnot_le (by omega)
          refine stepSpec_plain hmov' True.intro (by omega) ?_
          rw [ev1, ev2, h2, hAvE]
          rfl
  | .ifExpr c tE fE =>
    cases hc : compileExpr c st with
    | error er =>
      simp only [compileExpr, hc] at h
      exact Except.noConfusion h
    | ok st₁ =>
      cases hct : compileExpr tE
          { st₁ with code := (st₁.code ++ [Instr.testRax]) ++ [Instr.jz 0] } with
      | error er =>
        simp only [compileExpr, hc, hct] at h
        exact Except.noConfusion h
      | ok st₄ =>
        cases hcf : compileExpr fE
            { st₄ with code := (patchJump (st₄.code ++ [Instr.jmp 0])
                (st₁.code ++ [Instr.testRax]).length
                (st₄.code ++ [Instr.jmp 0]).length) } with
        | error er =>
          simp only [compileExpr, hc, hct, hcf] at h
          exact Except.noConfusion h
        | ok st₇ =>
          obtain ⟨Δc, hcc, hsc⟩ := compileExpr_balanced c st st₁ hc
          obtain ⟨Δt, hctc, hst⟩ := compileExpr_balanced tE
            { st₁ with code := (st₁.code ++ [Instr.testRax]) ++ [Instr.jz 0] } st₄ hct
          obtain ⟨Δf, hcfc, hsf⟩ := compileExpr_balanced fE
            { st₄ with code := (patchJump (st₄.code ++ [Instr.jmp 0])
                (st₁.code ++ [Instr.testRax]).length
                (st₄.code ++ [Instr.jmp 0]).length) } st₇ hcf
          simp only [compileExpr, hc, hct, hcf] at h
          injection h with h'
          subst h'
          exact if_case hcc hctc rfl hcfc hsc hst hsf rfl

/-- Invariant of the static simulation of a generated routine with body
segment `[2, b)` annotated by `A`: the depth is pinned at every position
outside the body and follows `1 + A` inside it. -/
def GInv (A : Nat → Int) (b : Nat) (s : Nat × Int) : Prop :=
  s = (0, 0) ∨ s = (1, 1) ∨ (∃ q, 2 ≤ q ∧ q < b ∧ s = (q, 1 + A q)) ∨
  s = (b, 1) ∨ s = (b + 1, 1) ∨ s = (b + 2, 0)

/-- A simulation step taken from inside the body segment lands inside the
body again or exits at `(b, 1)`. -/
lemma seg_step {F : List Instr} {A : Nat → Int} {b q : Nat} {d : Int}
    {s' : Nat × Int}
    (hAS : SegA F 2 b A) (hAb : A b = 0)
    (hq1 : 2 ≤ q) (hq2 : q < b) (hd : d = 1 + A q)
    (hstep : ExecStep F (q, d) s') :
    (∃ q', 2 ≤ q' ∧ q' < b ∧ s' = (q', 1 + A q')) ∨ s' = (b, 1) := by
  obtain ⟨i, hi, hc⟩ := hAS.2 q hq1 hq2
  cases hstep with
  | next hgp hplain =>
    rename_i i₂
    have hii : i₂ = i := Option.some.inj (hgp.symm.trans hi)
    subst hii
    cases i₂
    case ret => exact hc.elim
    case jz tg => exact hplain.elim
    case jmp tg => exact hplain.elim
    all_goals {
      obtain ⟨h1, h2⟩ := hc
      rcases Nat.lt_or_ge (q + 1) b with hlt | hge
      · exact Or.inl ⟨q + 1, by omega, hlt, by rw [Prod.mk.injEq]; exact ⟨rfl, by omega⟩⟩
      · have he : q + 1 = b := by omega
        refine Or.inr ?_
        rw [Prod.mk.injEq]
        refine ⟨he, ?_⟩
        rw [he] at h2
        omega }
  | jzTaken hgp =>
    rename_i tg
    have hii : Instr.jz tg = i := Option.some.inj (hgp.symm.trans hi)
    subst hii
    obtain ⟨h1, h2, h3, h4, h5⟩ := hc
    rcases Nat.lt_or_ge tg b with hlt | hge
    · exact Or.inl ⟨tg, h1, hlt, by rw [Prod.mk.injEq]; exact ⟨rfl, by omega⟩⟩
    · have he : tg = b := by omega
      refine Or.inr ?_
      rw [Prod.mk.injEq]
      refine ⟨he, ?_⟩
      rw [he] at h3
      omega
  | jzFall hgp =>
    rename_i tg
    have hii : Instr.jz tg = i := Option.some.inj (hgp.symm.trans hi)
    subst hii
    obtain ⟨h1, h2, h3, h4, h5⟩ := hc
    rcases Nat.lt_or_ge (q + 1) b with hlt | hge
    · exact Or.inl ⟨q + 1, by omega, hlt, by rw [Prod.mk.injEq]; exact ⟨rfl, by omega⟩⟩
    · have he : q + 1 = b := by omega
      refine Or.inr ?_
      rw [Prod.mk.injEq]
      refine ⟨he, ?_⟩
      rw [he] at h5
      omega
  | jmpJump hgp =>
    rename_i tg
    have hii : Instr.jmp tg = i := Option.some.inj (hgp.symm.trans hi)
    subst hii
    obtain ⟨h1, h2, h3⟩ := hc
    rcases Nat.lt_or_ge tg b with hlt | hge
    · exact Or.inl ⟨tg, h1, hlt, by rw [Prod.mk.injEq]; exact ⟨rfl, by omega⟩⟩
    · have he : tg = b := by omega
      refine Or.inr ?_
      rw [Prod.mk.injEq]
      refine ⟨he, ?_⟩
      rw [he] at h3
      omega

/-- The invariant `GInv` is closed under simulation steps. -/
lemma ginv_step {F : List Instr} {A : Nat → Int} {b : Nat} {s s' : Nat × Int}
    (hA2 : A 2 = 0) (hAb : A b = 0) (hAS : SegA F 2 b A)
    (hF0 : F.get? 0 = some Instr.pushRbp)
    (hF1 : F.get? 1 = some Instr.movRbpRsp)
    (hFb : F.get? b = some Instr.movRspRbp)
    (hFb1 : F.get? (b + 1) = some Instr.popRbp)
    (hFb2 : F.get? (b + 2) = some Instr.ret)
    (hb2 : 2 ≤ b)
    (hs : GInv A b s) (hstep : ExecStep F s s') : GInv A b s' := by
  rcases hs with h | h | ⟨q, hq1, hq2, h⟩ | h | h | h
  · subst h
    cases hstep with
    | next hgp hplain =>
      rename_i i₂
      have hii : i₂ = Instr.pushRbp := Option.some.inj (hgp.symm.trans hF0)
      subst hii
      exact Or.inr (Or.inl rfl)
    | jzTaken hgp => exact absurd (Option.some.inj (hgp.symm.trans hF0)) (by simp)
    | jzFall hgp => exact absurd (Option.some.inj (hgp.symm.trans hF0)) (by simp)
    | jmpJump hgp => exact absurd (Option.some.inj (hgp.symm.trans hF0)) (by simp)
  · subst h
    cases hstep with
    | next hgp hplain =>
      rename_i i₂
      have hii : i₂ = Instr.movRbpRsp := Option.some.inj (hgp.symm.trans hF1)
      subst hii
      rcases Nat.lt_or_ge 2 b with hlt | hge
      · exact Or.inr (Or.inr (Or.inl ⟨2, Nat.le_refl 2, hlt,
          by rw [Prod.mk.injEq]; exact ⟨rfl, by simp only [stackEff]; omega⟩⟩))
      · have he : b = 2 := by omega
        subst he
        exact Or.inr (Or.inr (Or.inr (Or.inl
          (by rw [Prod.mk.injEq]; exact ⟨rfl, by simp only [stackEff]; omega⟩))))
    | jzTaken hgp => exact absurd (Option.some.inj (hgp.symm.trans hF1)) (by simp)
    | jzFall hgp => exact absurd (Option.some.inj (hgp.symm.trans hF1)) (by simp)
    | jmpJump hgp => exact absurd (Option.some.inj (hgp.symm.trans hF1)) (by simp)
  · subst h
    rcases seg_step hAS hAb hq1 hq2 rfl hstep with ⟨q', g1, g2, g3⟩ | g
    · exact Or.inr (Or.inr (Or.inl ⟨q', g1, g2, g3⟩))
    · exact Or.inr (Or.inr (Or.inr (Or.inl g)))
  · subst h
    cases hstep with
    | next hgp hplain =>
      rename_i i₂
      have hii : i₂ = Instr.movRspRbp := Option.some.inj (hgp.symm.trans hFb)
      subst hii
      exact Or.inr (Or.inr (Or.inr (Or.inr (Or.inl rfl))))
    | jzTaken hgp => exact absurd (Option.some.inj (hgp.symm.trans hFb)) (by simp)
    | jzFall hgp => exact absurd (Option.some.inj (hgp.symm.trans hFb)) (by simp)
    | jmpJump hgp => exact absurd (Option.some.inj (hgp.symm.trans hFb)) (by simp)
  · subst h
    cases hstep with
    | next hgp hplain =>
      rename_i i₂
      have hii : i₂ = Instr.popRbp := Option.some.inj (hgp.symm.trans hFb1)
      subst hii
      refine Or.inr (Or.inr (Or.inr (Or.inr (Or.inr ?_))))
      rw [Prod.mk.injEq]
      exact ⟨rfl, by simp only [stackEff]; omega⟩
    | jzTaken hgp => exact absurd (Option.some.inj (hgp.symm.trans hFb1)) (by simp)
    | jzFall hgp => exact absurd (Option.some.inj (hgp.symm.trans hFb1)) (by simp)
    | jmpJump hgp => exact absurd (Option.some.inj (hgp.symm.trans hFb1)) (by simp)
  · subst h
    cases hstep with
    | next hgp hplain =>
      rename_i i₂
      have hii : i₂ = Instr.ret := Option.some.inj (hgp.symm.trans hFb2)
      subst hii
      exact hplain.elim
    | jzTaken hgp => exact absurd (Option.some.inj (hgp.symm.trans hFb2)) (by simp)
    | jzFall hgp => exact absurd (Option.some.inj (hgp.symm.trans hFb2)) (by simp)
    | jmpJump hgp => exact absurd (Option.some.inj (hgp.symm.trans hFb2)) (by simp)

lemma get?_append_off {α : Type} (l₁ l₂ : List α) (k : Nat) :
    (l₁ ++ l₂).get? (l₁.length + k) = l₂.get? k := by
  rw [List.get?_append_right (by omega)]
  congr 1
  omega

/-- C6: for every expression for which `X86CodeGenerator::generate`
succeeds, the generated instruction stream is stack-balanced: every path of
the static simulation of the routine that reaches the `ret` instruction does
so with operand-stack depth 0, i.e. having executed as many pushes as pops. -/
theorem generate_stack_balanced (e : Expr) (cf : CompiledFunction)
    (hg : generate e = .ok cf) (p : Nat) (d : Int)
    (hr : ExecReach cf.code (0, 0) (p, d))
    (hret : cf.code.get? p = some Instr.ret) : d = 0 := by
  cases hce : compileExpr e { code := [Instr.pushRbp, Instr.movRbpRsp], vars := [], stack_offset := 0 } with
  | error er =>
    simp only [generate, hce] at hg
    exact Except.noConfusion hg
  | ok st₂ =>
    simp only [generate, hce] at hg
    injection hg with hg'
    subst hg'
    obtain ⟨Δ, hcode, hseg⟩ := compileExpr_balanced e { code := [Instr.pushRbp, Instr.movRbpRsp], vars := [], stack_offset := 0 } st₂ hce
    have hF : st₂.code ++ [Instr.movRspRbp, Instr.popRbp, Instr.ret] =
        ([Instr.pushRbp, Instr.movRbpRsp] ++ Δ) ++
          [Instr.movRspRbp, Instr.popRbp, Instr.ret] := by
      rw [hcode]
    have hlen2 : st₂.code.length = 2 + Δ.length := by
      simp [hcode]
      omega
    have hsub : SubAgree (st₂.code ++ [Instr.movRspRbp, Instr.popRbp, Instr.ret]) 2 Δ := by
      intro j hj
      rw [hF]
      have h1 : (2 + j) < ([Instr.pushRbp, Instr.movRbpRsp] ++ Δ).length := by
        simp
        omega
      rw [List.get?_append h1]
      have h2 := get?_append_off [Instr.pushRbp, Instr.movRbpRsp] Δ j
      simpa using h2
    obtain ⟨A, hA0, hAE, hAS⟩ := hseg _ hsub
    have hA2 : A 2 = 0 := hA0
    have hAb : A (2 + Δ.length) = 0 := hAE
    have hASb : SegA (st₂.code ++ [Instr.movRspRbp, Instr.popRbp, Instr.ret]) 2
        (2 + Δ.length) A := hAS
    have hF0 : (st₂.code ++ [Instr.movRspRbp, Instr.popRbp, Instr.ret]).get? 0 =
        some Instr.pushRbp := by
      rw [hF]; rfl
    have hF1 : (st₂.code ++ [Instr.movRspRbp, Instr.popRbp, Instr.ret]).get? 1 =
        some Instr.movRbpRsp := by
      rw [hF]; rfl
    have hFb : (st₂.code ++ [Instr.movRspRbp, Instr.popRbp, Instr.ret]).get?
        (2 + Δ.length) = some Instr.movRspRbp := by
      have h := get?_append_off st₂.code [Instr.movRspRbp, Instr.popRbp, Instr.ret] 0
      rw [hlen2] at h
      simpa using h
    have hFb1 : (st₂.code ++ [Instr.movRspRbp, Instr.popRbp, Instr.ret]).get?
        (2 + Δ.length + 1) = some Instr.popRbp := by
      have h := get?_append_off st₂.code [Instr.movRspRbp, Instr.popRbp, Instr.ret] 1
      rw [hlen2] at h
      simpa using h
    have hFb2 : (st₂.code ++ [Instr.movRspRbp, Instr.popRbp, Instr.ret]).get?
        (2 + Δ.length + 2) = some Instr.ret := by
      have h := get?_append_off st₂.code [Instr.movRspRbp, Instr.popRbp, Instr.ret] 2
      rw [hlen2] at h
      simpa using h
    have hinvAll : ∀ s, ExecReach (st₂.code ++ [Instr.movRspRbp, Instr.popRbp, Instr.ret])
        (0, 0) s → GInv A (2 + Δ.length) s := by
      intro s hrr
      induction hrr with
      | refl => exact Or.inl rfl
      | tail hsteps hstep ih =>
        exact ginv_step hA2 hAb hASb hF0 hF1 hFb hFb1 hFb2 (by omega) ih hstep
    rcases hinvAll (p, d) hr with h | h | ⟨q, hq1, hq2, h⟩ | h | h | h
    · rw [Prod.mk.injEq] at h
      rw [h.1] at hret
      exact absurd (Option.some.inj (hret.symm.trans hF0)) (by simp)
    · rw [Prod.mk.injEq] at h
      rw [h.1] at hret
      exact absurd (Option.some.inj (hret.symm.trans hF1)) (by simp)
    · rw [Prod.mk.injEq] at h
      obtain ⟨i, hi, hc⟩ := hASb.2 q hq1 hq2
      rw [h.1] at hret
      have hii : i = Instr.ret := Option.some.inj (hi.symm.trans hret)
      subst hii
      exact hc.elim
    · rw [Prod.mk.injEq] at h
      rw [h.1] at hret
      exact absurd (Option.some.inj (hret.symm.trans hFb)) (by simp)
    · rw [Prod.mk.injEq] at h
      rw [h.1] at hret
      exact absurd (Option.some.inj (hret.symm.trans hFb1)) (by simp)
    · rw [Prod.mk.injEq] at h
      exact h.2

/-- The artifact generated for the literal `1`. -/
def cfOne : CompiledFunction :=
  ⟨[Instr.pushRbp, Instr.movRbpRsp, Instr.movRaxImm 1, Instr.movRspRbp, Instr.popRbp,
    Instr.ret], 0, []⟩

theorem generate_stack_balanced_witness :
    generate (Expr.number 1) = .ok cfOne ∧ (0 : Int) = 0 := by
  constructor
  · rfl
  · refine generate_stack_balanced (Expr.number 1) cfOne rfl 5 0 ?_ rfl
    have s1 : ExecStep cfOne.code (0, 0) (1, 1) := by
      have h : ExecStep cfOne.code (0, 0) (0 + 1, 0 + stackEff Instr.pushRbp) :=
        ExecStep.next rfl True.intro
      simpa [stackEff] using h
    have s2 : ExecStep cfOne.code (1, 1) (2, 1) := by
      have h : ExecStep cfOne.code (1, 1) (1 + 1, 1 + stackEff Instr.movRbpRsp) :=
        ExecStep.next rfl True.intro
      simpa [stackEff] using h
    have s3 : ExecStep cfOne.code (2, 1) (3, 1) := by
      have h : ExecStep cfOne.code (2, 1) (2 + 1, 1 + stackEff (Instr.movRaxImm 1)) :=
        ExecStep.next rfl True.intro
      simpa [stackEff] using h
    have s4 : ExecStep cfOne.code (3, 1) (4, 1) := by
      have h : ExecStep cfOne.code (3, 1) (3 + 1, 1 + stackEff Instr.movRspRbp) :=
        ExecStep.next rfl True.intro
      simpa [stackEff] using h
    have s5 : ExecStep cfOne.code (4, 1) (5, 0) := by
      have h : ExecStep cfOne.code (4, 1) (4 + 1, 1 + stackEff Instr.popRbp) :=
        ExecStep.next rfl True.intro
      simpa [stackEff] using h
    exact Relation.ReflTransGen.head s1 (Relation.ReflTransGen.head s2
      (Relation.ReflTransGen.head s3 (Relation.ReflTransGen.head s4
        (Relation.ReflTransGen.head s5 Relation.ReflTransGen.refl))))

/-- C5: `is_jit_compilable` holds of literals and variable reads, holds of a
binary operation iff it holds of both operands, of an assignment iff it
holds of the assigned value, of a conditional iff it holds of condition and
both branches, and never holds of a function call. -/
theorem isJitCompilable_characterisation :
    (∀ n, isJitCompilable (.number n) = true) ∧
    (∀ s, isJitCompilable (.var s) = true) ∧
    (∀ l op r, isJitCompilable (.binary l op r) =
      (isJitCompilable l && isJitCompilable r)) ∧
    (∀ n v, isJitCompilable (.assignment n v) = isJitCompilable v) ∧
    (∀ c t f, isJitCompilable (.ifExpr c t f) =
      (isJitCompilable c && (isJitCompilable t && isJitCompilable f))) ∧
    (∀ n args, isJitCompilable (.functionCall n args) = false) :=
  ⟨fun _ => rfl, fun _ => rfl, fun _ _ _ => rfl, fun _ _ => rfl, fun _ _ _ => rfl,
   fun _ _ => rfl⟩

/-- C10: `reset_stats` clears the statistics and the JIT cache and also
resets the interpreter environment, so a variable assigned before the reset
(and indeed any variable) evaluates to an undefined-variable error when
referenced afterwards. -/
theorem resetStats_clears_environment :
    ∀ (s : JitCompiler) (name : String) (v : Int) (t ct : Nat),
      (resetStats (execState (.assignment name (.number v)) t ct s)).stats = JitStats.init ∧
      (resetStats (execState (.assignment name (.number v)) t ct s)).jit_cache = [] ∧
      (resetStats (execState (.assignment name (.number v)) t ct s)).env = [] ∧
      evalExpr (.var name) (resetStats (execState (.assignment name (.number v)) t ct s)).env =
        (.error (.undefinedVariable name), []) ∧
      envGet (execState (.assignment name (.number v)) t ct s).env name = some v := by
  intro s name v t ct
  refine ⟨rfl, rfl, rfl, rfl, ?_⟩
  show envGet (execute (.assignment name (.number v)) t ct s).2.env name = some v
  have henvset : ∀ env : Environment, envGet (envSet env name v) name = some v := by
    intro env
    induction env with
    | nil => simp [envSet, envGet]
    | cons kv rest ih =>
      by_cases hk : kv.1 = name
      · simp [envSet, hk, envGet]
      · simp [envSet, hk, envGet, ih]
  have heval : evalExpr (.assignment name (.number v)) (compilePhase (.assignment name (.number v)) (hashExpr (.assignment name (.number v))) (cacheRecord (hashExpr (.assignment name (.number v))) (isJitCompilable (.assignment name (.number v))) s).1 ct (cacheRecord (hashExpr (.assignment name (.number v))) (isJitCompilable (.assignment name (.number v))) s).2).env =
      (.ok v, envSet (compilePhase (.assignment name (.number v)) (hashExpr (.assignment name (.number v))) (cacheRecord (hashExpr (.assignment name (.number v))) (isJitCompilable (.assignment name (.number v))) s).1 ct (cacheRecord (hashExpr (.assignment name (.number v))) (isJitCompilable (.assignment name (.number v))) s).2).env name v) := by
    simp [evalExpr]
  unfold execute runPhase
  cases hfind : cacheFind (hashExpr (.assignment name (.number v)))
      (compilePhase (.assignment name (.number v)) (hashExpr (.assignment name (.number v))) (cacheRecord (hashExpr (.assignment name (.number v))) (isJitCompilable (.assignment name (.number v))) s).1 ct (cacheRecord (hashExpr (.assignment name (.number v))) (isJitCompilable (.assignment name (.number v))) s).2).jit_cache with
  | none =>
    simp only [hfind, evaluate, heval, statsPhase]
    exact henvset _
  | some entry =>
    cases hcf : entry.compiled_function with
    | none =>
      simp only [hfind, hcf, evaluate, heval, statsPhase]
      exact henvset _
    | some cfun =>
      simp only [hfind, hcf, evaluateWithoutDelay, heval, statsPhase]
      exact henvset _

instance exceptDecEq {ε α : Type} [DecidableEq ε] [DecidableEq α] :
    DecidableEq (Except ε α) := fun x y =>
  match x, y with
  | .ok a, .ok b =>
    if h : a = b then isTrue (by rw [h]) else isFalse (fun hh => h (Except.ok.inj hh))
  | .error a, .error b =>
    if h : a = b then isTrue (by rw [h]) else isFalse (fun hh => h (Except.error.inj hh))
  | .ok _, .error _ => isFalse (fun hh => Except.noConfusion hh)
  | .error _, .ok _ => isFalse (fun hh => Except.noConfusion hh)

/-- C9 counterexample: `x % 2` is accepted by the compilability predicate
and its generation fails, but with an undefined-variable error (the right
then left operand are compiled before the operator is dispatched), not with
the claimed unsupported-operation error. -/
theorem c9_counterexample_mod_with_variable :
    isJitCompilable (.binary (.var "x") .mod (.number 2)) = true ∧
    generate (.binary (.var "x") .mod (.number 2)) =
      .error (.undefinedVariable "x") ∧
    decide (generate (.binary (.var "x") .mod (.number 2)) =
      .error (.unsupportedBinaryOperation BinaryOp.mod)) = false := by
  refine ⟨rfl, rfl, by decide⟩

/-- C9 (amended): there are expressions accepted by the compilability
predicate whose generation fails; whenever both operand compilations
succeed, a binary node with operator `Mod`, `NotEqual`, `LessEq` or
`GreaterEq` makes `generate` fail with the unsupported-operation error, and
such a node is compilable whenever its operands are. -/
theorem c9_amended_unsupported_ops (op : BinaryOp) (l r : Expr)
    (hop : op = .mod ∨ op = .notEqual ∨ op = .lessEq ∨ op = .greaterEq)
    (st₁ st₂ : CGState)
    (hr : compileExpr r { code := [Instr.pushRbp, Instr.movRbpRsp], vars := [], stack_offset := 0 } = .ok st₁)
    (hl : compileExpr l { st₁ with code := st₁.code ++ [Instr.pushRax] } = .ok st₂) :
    generate (.binary l op r) = .error (.unsupportedBinaryOperation op) ∧
    (isJitCompilable l = true → isJitCompilable r = true →
      isJitCompilable (.binary l op r) = true) := by
  constructor
  · rcases hop with h | h | h | h <;>
      (subst h; simp only [generate, compileExpr, hr, hl])
  · intro h1 h2
    simp [isJitCompilable, h1, h2]

theorem c9_amended_witness :
    generate (.binary (.number 1) .mod (.number 2)) =
      .error (.unsupportedBinaryOperation BinaryOp.mod) ∧
    isJitCompilable (.binary (.number 1) .mod (.number 2)) = true := by
  have h := c9_amended_unsupported_ops .mod (.number 1) (.number 2) (Or.inl rfl)
    { code := [Instr.pushRbp, Instr.movRbpRsp, Instr.movRaxImm 2], vars := [], stack_offset := 0 }
    { code := [Instr.pushRbp, Instr.movRbpRsp, Instr.movRaxImm 2, Instr.pushRax, Instr.movRaxImm 1], vars := [], stack_offset := 0 }
    rfl rfl
  exact ⟨h.1, h.2 rfl rfl⟩

lemma cacheRecord_env (h : Nat) (b : Bool) (s : JitCompiler) :
    (cacheRecord h b s).2.env = s.env := by
  unfold cacheRecord
  cases cacheFind h s.jit_cache <;> simp

lemma compilePhase_env (e : Expr) (h : Nat) (b : Bool) (ct : Nat) (s : JitCompiler) :
    (compilePhase e h b ct s).env = s.env := by
  unfold compilePhase
  cases b
  · simp
  · simp only [if_true]
    cases generate e with
    | error er => simp
    | ok cf =>
      simp only []
      cases cacheFind h
          ({ s with stats := { s.stats with jit_compilations := s.stats.jit_compilations + 1, total_compilation_time_ns := s.stats.total_compilation_time_ns + ct } } : JitCompiler).jit_cache with
      | none => simp
      | some entry => simp

/-- An evaluation error makes `execute` return exactly that error. -/
lemma execute_error_of_evalExpr {e : Expr} {er : EvalError} {env₂ : Environment}
    (t ct : Nat) (s : JitCompiler)
    (he : evalExpr e s.env = (.error er, env₂)) :
    (execute e t ct s).1 = .error er := by
  unfold execute runPhase
  have henv : (compilePhase e (hashExpr e)
      (cacheRecord (hashExpr e) (isJitCompilable e) s).1 ct
      (cacheRecord (hashExpr e) (isJitCompilable e) s).2).env = s.env := by
    rw [compilePhase_env, cacheRecord_env]
  cases hfind : cacheFind (hashExpr e)
      (compilePhase e (hashExpr e)
        (cacheRecord (hashExpr e) (isJitCompilable e) s).1 ct
        (cacheRecord (hashExpr e) (isJitCompilable e) s).2).jit_cache with
  | none => simp [hfind, evaluate, henv, he]
  | some entry =>
    cases hcf : entry.compiled_function with
    | none => simp [hfind, hcf, evaluate, henv, he]
    | some cfun => simp [hfind, hcf, evaluateWithoutDelay, henv, he]

/-- C8: a division or modulo whose operands both evaluate successfully is an
error iff the right operand evaluates to 0; otherwise it yields the
truncated quotient (resp. remainder); and the division-by-zero error is
surfaced to the caller of `execute` as an error value. -/
theorem division_by_zero_semantics (l r : Expr) (op : BinaryOp)
    (hop : op = .div ∨ op = .mod)
    (env env₁ env₂ : Environment) (vl vr : Int)
    (hl : evalExpr l env = (.ok vl, env₁))
    (hr : evalExpr r env₁ = (.ok vr, env₂)) :
    (vr = 0 → evalExpr (.binary l op r) env = (.error .divisionByZero, env₂)) ∧
    (vr ≠ 0 → evalExpr (.binary l op r) env =
      (.ok (if op = .div then vl.tdiv vr else vl.tmod vr), env₂)) ∧
    (vr = 0 → ∀ (t ct : Nat) (s : JitCompiler), s.env = env →
      (execute (.binary l op r) t ct s).1 = .error .divisionByZero) := by
  have h0 : ∀ hv : vr = 0,
      evalExpr (.binary l op r) env = (.error .divisionByZero, env₂) := by
    intro hv
    rcases hop with h | h <;> (subst h; simp [evalExpr, hl, hr, hv])
  refine ⟨h0, ?_, ?_⟩
  · intro hv
    rcases hop with h | h <;> (subst h; simp [evalExpr, hl, hr, hv])
  · intro hv t ct s hs
    exact @execute_error_of_evalExpr (.binary l op r) .divisionByZero env₂ t ct s
      (by rw [hs]; exact h0 hv)

theorem division_by_zero_semantics_witness :
    evalExpr (.binary (.number 7) .div (.number 0)) [] =
      (.error .divisionByZero, []) ∧
    evalExpr (.binary (.number 7) .mod (.number 2)) [] = (.ok 1, []) ∧
    (execute (.binary (.number 7) .div (.number 0)) 0 0 JitCompiler.new).1 =
      .error .divisionByZero := by
  have h₁ := division_by_zero_semantics (.number 7) (.number 0) .div (Or.inl rfl)
    [] [] [] 7 0 rfl rfl
  have h₂ := division_by_zero_semantics (.number 7) (.number 2) .mod (Or.inr rfl)
    [] [] [] 7 2 rfl rfl
  refine ⟨h₁.1 rfl, ?_, h₁.2.2 rfl 0 0 JitCompiler.new rfl⟩
  have h := h₂.2.1 (by decide)
  simpa using h

lemma cacheRecord_stats (h : Nat) (b : Bool) (s : JitCompiler) :
    (cacheRecord h b s).2.stats = s.stats := by
  unfold cacheRecord
  cases cacheFind h s.jit_cache <;> simp

lemma compilePhase_stats_executions (e : Expr) (h : Nat) (b : Bool) (ct : Nat)
    (s : JitCompiler) :
    (compilePhase e h b ct s).stats.total_executions = s.stats.total_executions ∧
    (compilePhase e h b ct s).stats.total_execution_time_ns =
      s.stats.total_execution_time_ns := by
  unfold compilePhase
  cases b
  · simp
  · simp only [if_true]
    cases generate e with
    | error er => simp
    | ok cf =>
      simp only []
      cases cacheFind h
          ({ s with stats := { s.stats with jit_compilations := s.stats.jit_compilations + 1, total_compilation_time_ns := s.stats.total_compilation_time_ns + ct } } : JitCompiler).jit_cache with
      | none => simp
      | some entry => simp

lemma runPhase_stats (e : Expr) (h t : Nat) (s : JitCompiler) :
    (runPhase e h t s).2.stats = s.stats := by
  unfold runPhase
  cases hfind : cacheFind h s.jit_cache with
  | none =>
    cases hev : evaluate t e s.env with
    | mk res env' => cases res <;> simp [hev]
  | some entry =>
    cases hcf : entry.compiled_function with
    | none =>
      cases hev : evaluate t e s.env with
      | mk res env' => cases res <;> simp [hcf, hev]
    | some cfun =>
      cases hev : evaluateWithoutDelay t e s.env with
      | mk res env' => cases res <;> simp [hcf, hev]

lemma runPhase_fst_ok_time (e : Expr) (h t : Nat) (s : JitCompiler)
    (r : ExecutionResult) (hr : (runPhase e h t s).1 = .ok r) :
    r.execution_time_ns = t := by
  cases hfind : cacheFind h s.jit_cache with
  | none =>
    cases hev : evalExpr e s.env with
    | mk res env' =>
      cases res with
      | error er => simp [runPhase, hfind, evaluate, hev] at hr
      | ok v =>
        simp [runPhase, hfind, evaluate, hev] at hr
        first
        | rw [← hr]
        | rw [hr]
  | some entry =>
    cases hcf : entry.compiled_function with
    | none =>
      cases hev : evalExpr e s.env with
      | mk res env' =>
        cases res with
        | error er => simp [runPhase, hfind, hcf, evaluate, hev] at hr
        | ok v =>
          simp [runPhase, hfind, hcf, evaluate, hev] at hr
          first
          | rw [← hr]
          | rw [hr]
    | some cfun =>
      cases hev : evalExpr e s.env with
      | mk res env' =>
        cases res with
        | error er => simp [runPhase, hfind, hcf, evaluateWithoutDelay, hev] at hr
        | ok v =>
          simp [runPhase, hfind, hcf, evaluateWithoutDelay, hev] at hr
          first
          | rw [← hr]
          | rw [hr]

/-- C7 counterexample: an `execute` call that returns an error (here a
division by zero on a fresh compiler) does not increment `total_executions`:
the `?` operator returns before the statistics update. -/
theorem c7_counterexample_error_skips_stats :
    (execute (.binary (.number 1) .div (.number 0)) 0 0 JitCompiler.new).1 =
      .error .divisionByZero ∧
    (execute (.binary (.number 1) .div (.number 0)) 0 0
        JitCompiler.new).2.stats.total_executions = 0 ∧
    JitCompiler.new.stats.total_executions = 0 := by
  refine ⟨by decide, by decide, rfl⟩

/-- C7 (amended): a call to `execute` that returns a value increments
`total_executions` by exactly one and adds the measured evaluation time to
`total_execution_time_ns`; a call that returns an error leaves both
counters unchanged. -/
theorem execute_stats_update (e : Expr) (t ct : Nat) (s : JitCompiler) :
    (∀ (r : ExecutionResult) (s' : JitCompiler), execute e t ct s = (.ok r, s') →
      s'.stats.total_executions = s.stats.total_executions + 1 ∧
      s'.stats.total_execution_time_ns = s.stats.total_execution_time_ns + t) ∧
    (∀ (er : EvalError) (s' : JitCompiler), execute e t ct s = (.error er, s') →
      s'.stats.total_executions = s.stats.total_executions ∧
      s'.stats.total_execution_time_ns = s.stats.total_execution_time_ns) := by
  have hbase := compilePhase_stats_executions e (hashExpr e)
    (cacheRecord (hashExpr e) (isJitCompilable e) s).1 ct
    (cacheRecord (hashExpr e) (isJitCompilable e) s).2
  rw [cacheRecord_stats] at hbase
  have hrs := runPhase_stats e (hashExpr e) t
    (compilePhase e (hashExpr e) (cacheRecord (hashExpr e) (isJitCompilable e) s).1 ct
      (cacheRecord (hashExpr e) (isJitCompilable e) s).2)
  cases hrp : runPhase e (hashExpr e) t
      (compilePhase e (hashExpr e) (cacheRecord (hashExpr e) (isJitCompilable e) s).1 ct
        (cacheRecord (hashExpr e) (isJitCompilable e) s).2) with
  | mk res s₃ =>
    rw [hrp] at hrs
    have hs₃ : s₃.stats = (compilePhase e (hashExpr e)
        (cacheRecord (hashExpr e) (isJitCompilable e) s).1 ct
        (cacheRecord (hashExpr e) (isJitCompilable e) s).2).stats := by
      simpa using hrs
    constructor
    · intro r s' hexec
      cases res with
      | error er => simp [execute, hrp] at hexec
      | ok r₀ =>
        have htime := runPhase_fst_ok_time e (hashExpr e) t _ r₀ (by rw [hrp])
        simp only [execute, hrp, statsPhase] at hexec
        injection hexec with hA hB
        subst hB
        constructor
        · show s₃.stats.total_executions + 1 = s.stats.total_executions + 1
          rw [hs₃, hbase.1]
        · show s₃.stats.total_execution_time_ns + r₀.execution_time_ns =
            s.stats.total_execution_time_ns + t
          rw [htime, hs₃, hbase.2]
    · intro er s' hexec
      cases res with
      | ok r₀ => simp [execute, hrp, statsPhase] at hexec
      | error er₀ =>
        simp only [execute, hrp] at hexec
        injection hexec with hA hB
        subst hB
        constructor
        · show s₃.stats.total_executions = s.stats.total_executions
          rw [hs₃, hbase.1]
        · show s₃.stats.total_execution_time_ns = s.stats.total_execution_time_ns
          rw [hs₃, hbase.2]

instance : Inhabited ExecutionResult := ⟨⟨0, [], 0, none, false⟩⟩

theorem execute_stats_update_witness :
    (execute (.number 3) 7 0 JitCompiler.new).2.stats.total_executions =
      JitCompiler.new.stats.total_executions + 1 ∧
    (execute (.number 3) 7 0 JitCompiler.new).2.stats.total_execution_time_ns =
      JitCompiler.new.stats.total_execution_time_ns + 7 := by
  have h := (execute_stats_update (.number 3) 7 0 JitCompiler.new).1
    (execute (.number 3) 7 0 JitCompiler.new).1.toOption.get!
    (execute (.number 3) 7 0 JitCompiler.new).2 (by decide)
  exact h

lemma cacheFind_hash (h : Nat) (cache : List JitEntry) (entry : JitEntry)
    (hfind : cacheFind h cache = some entry) : entry.expr_hash = h := by
  induction cache with
  | nil => exact Option.noConfusion hfind
  | cons en rest ih =>
    by_cases he : en.expr_hash = h
    · simp only [cacheFind, he, if_true] at hfind
      injection hfind with hh
      rw [← hh]
      exact he
    · simp only [cacheFind, he, if_false] at hfind
      exact ih hfind

lemma cacheFind_cacheUpdate (h : Nat) (e' : JitEntry) (cache : List JitEntry)
    (entry : JitEntry) (he' : e'.expr_hash = h)
    (hfind : cacheFind h cache = some entry) :
    cacheFind h (cacheUpdate h e' cache) = some e' := by
  induction cache with
  | nil => exact Option.noConfusion hfind
  | cons en rest ih =>
    by_cases he : en.expr_hash = h
    · simp [cacheFind, cacheUpdate, he, he']
    · simp only [cacheFind, cacheUpdate, he, if_false] at hfind ⊢
      exact ih hfind

/-- C1: when a cache entry for the expression has an installed artifact and
interpretation succeeds, the Compiled path of `execute` (which delegates to
`evaluate_without_delay`) returns exactly the interpreter's value and
updated environment snapshot, marked as JIT-compiled. -/
theorem compiled_path_matches_interpreter (e : Expr) (s : JitCompiler)
    (entry : JitEntry) (cf : CompiledFunction) (t ct : Nat) (v : Int)
    (env' : Environment)
    (hcomp : isJitCompilable e = true)
    (hfind : cacheFind (hashExpr e) s.jit_cache = some entry)
    (hcf : entry.compiled_function = some cf)
    (heval : evalExpr e s.env = (.ok v, env')) :
    ∃ r : ExecutionResult, (execute e t ct s).1 = .ok r ∧
      r.value = v ∧ r.environment = env' ∧ r.was_jit_compiled = true := by
  have hrec : cacheRecord (hashExpr e) (isJitCompilable e) s =
      (false, { s with jit_cache := (cacheUpdate (hashExpr e) { entry with execution_count := entry.execution_count + 1 } s.jit_cache) }) := by
    unfold cacheRecord
    rw [hfind]
    simp [hcf]
  have hh : entry.expr_hash = hashExpr e := cacheFind_hash (hashExpr e) s.jit_cache entry hfind
  have hfind' : cacheFind (hashExpr e)
      (cacheUpdate (hashExpr e)
        { entry with execution_count := entry.execution_count + 1 } s.jit_cache) =
      some { entry with execution_count := entry.execution_count + 1 } :=
    cacheFind_cacheUpdate (hashExpr e)
      { entry with execution_count := entry.execution_count + 1 } s.jit_cache entry hh hfind
  refine ⟨⟨v, env', min t 10000, none, true⟩, ?_, rfl, rfl, rfl⟩
  show (execute e t ct s).1 = _
  simp only [execute]
  rw [hrec]
  simp only [compilePhase]
  rw [if_neg (by simp)]
  unfold runPhase
  rw [hfind']
  simp only [hcf, evaluateWithoutDelay, heval, statsPhase]
  rfl

theorem compiled_path_matches_interpreter_witness :
    ∃ r : ExecutionResult,
      (execute (.number 7) 1 2
        { stats := JitStats.init, hot_threshold := 5, env := [],
          jit_cache := [⟨hashExpr (.number 7), 3, some ⟨[], 0, []⟩⟩],
          max_cache_size := 100 }).1 = .ok r ∧
      r.value = 7 ∧ r.environment = [] ∧ r.was_jit_compiled = true :=
  compiled_path_matches_interpreter (.number 7)
    { stats := JitStats.init, hot_threshold := 5, env := [],
      jit_cache := [⟨hashExpr (.number 7), 3, some ⟨[], 0, []⟩⟩],
      max_cache_size := 100 }
    ⟨hashExpr (.number 7), 3, some ⟨[], 0, []⟩⟩ ⟨[], 0, []⟩ 1 2 7 []
    rfl (by simp [cacheFind]) rfl rfl

lemma jitCompiler_eq (s : JitCompiler) (st : JitStats) (ht : Nat) (env : Environment)
    (jc : List JitEntry) (mx : Nat)
    (h1 : s.stats = st) (h2 : s.hot_threshold = ht) (h3 : s.env = env)
    (h4 : s.jit_cache = jc) (h5 : s.max_cache_size = mx) :
    s = ⟨st, ht, env, jc, mx⟩ := by
  cases s
  simp only [] at h1 h2 h3 h4 h5
  subst h1
  subst h2
  subst h3
  subst h4
  subst h5
  rfl

lemma runPhase_fields (e : Expr) (h t : Nat) (s : JitCompiler) :
    (runPhase e h t s).2.jit_cache = s.jit_cache ∧
    (runPhase e h t s).2.hot_threshold = s.hot_threshold ∧
    (runPhase e h t s).2.max_cache_size = s.max_cache_size := by
  unfold runPhase
  cases hfind : cacheFind h s.jit_cache with
  | none =>
    cases hev : evaluate t e s.env with
    | mk res env' => cases res <;> simp [hev]
  | some entry =>
    cases hcf : entry.compiled_function with
    | none =>
      cases hev : evaluate t e s.env with
      | mk res env' => cases res <;> simp [hcf, hev]
    | some cfun =>
      cases hev : evaluateWithoutDelay t e s.env with
      | mk res env' => cases res <;> simp [hcf, hev]

lemma execState_fields (e : Expr) (t ct : Nat) (s : JitCompiler) :
    (execState e t ct s).jit_cache =
      (compilePhase e (hashExpr e) (cacheRecord (hashExpr e) (isJitCompilable e) s).1 ct
        (cacheRecord (hashExpr e) (isJitCompilable e) s).2).jit_cache ∧
    (execState e t ct s).hot_threshold =
      (compilePhase e (hashExpr e) (cacheRecord (hashExpr e) (isJitCompilable e) s).1 ct
        (cacheRecord (hashExpr e) (isJitCompilable e) s).2).hot_threshold ∧
    (execState e t ct s).max_cache_size =
      (compilePhase e (hashExpr e) (cacheRecord (hashExpr e) (isJitCompilable e) s).1 ct
        (cacheRecord (hashExpr e) (isJitCompilable e) s).2).max_cache_size := by
  simp only [execState, execute]
  have hf := runPhase_fields e (hashExpr e) t
    (compilePhase e (hashExpr e) (cacheRecord (hashExpr e) (isJitCompilable e) s).1 ct
      (cacheRecord (hashExpr e) (isJitCompilable e) s).2)
  cases hrp : runPhase e (hashExpr e) t
      (compilePhase e (hashExpr e) (cacheRecord (hashExpr e) (isJitCompilable e) s).1 ct
        (cacheRecord (hashExpr e) (isJitCompilable e) s).2) with
  | mk res s₃ =>
    rw [hrp] at hf
    cases res with
    | error er => simpa using hf
    | ok r =>
      simp only [statsPhase]
      simpa using hf

lemma compilePhase_false (e : Expr) (h ct : Nat) (s : JitCompiler) :
    compilePhase e h false ct s = s := by
  simp [compilePhase]

lemma compilePhase_gen_error (e : Expr) (h : Nat) (b : Bool) (ct : Nat)
    (s : JitCompiler) (er : CodeGenError) (hgen : generate e = .error er) :
    compilePhase e h b ct s = s := by
  unfold compilePhase
  cases b
  · simp
  · simp [hgen]

lemma cacheRecord_fresh (e : Expr) (stats₀ : JitStats) (env₀ : Environment) :
    cacheRecord (hashExpr e) (isJitCompilable e)
      ⟨stats₀, 5, env₀, [], 100⟩ =
    (false, ⟨stats₀, 5, env₀, [⟨hashExpr e, 1, none⟩], 100⟩) := by
  unfold cacheRecord
  simp [cacheFind]

lemma cacheRecord_singleton (e : Expr) (stats₀ : JitStats) (env₀ : Environment)
    (n : Nat) (cfo : Option CompiledFunction) :
    cacheRecord (hashExpr e) (isJitCompilable e)
      ⟨stats₀, 5, env₀, [⟨hashExpr e, n, cfo⟩], 100⟩ =
    (isJitCompilable e && (decide (n + 1 ≥ 5) && cfo.isNone),
     ⟨stats₀, 5, env₀, [⟨hashExpr e, n + 1, cfo⟩], 100⟩) := by
  unfold cacheRecord
  simp [cacheFind, cacheUpdate]

/-- In a same-expression submission trace, as long as the hot threshold has
not been reached, the state keeps threshold 5, capacity 100 and a single
uncompiled entry whose count equals the number of submissions. -/
lemma trace_shape_low (e : Expr) (t ct : Nat) :
    ∀ n, 1 ≤ n → n ≤ 4 → ∃ stats env,
      submitTrace e t ct n = ⟨stats, 5, env, [⟨hashExpr e, n, none⟩], 100⟩ := by
  intro n
  induction n with
  | zero => omega
  | succ m ih =>
    intro h1 h2
    rcases Nat.eq_or_lt_of_le h1 with he | hlt
    · obtain ⟨hc1, hc2, hc3⟩ := execState_fields e t ct JitCompiler.new
      have hrec : cacheRecord (hashExpr e) (isJitCompilable e) JitCompiler.new =
          (false, ⟨JitStats.init, 5, [], [⟨hashExpr e, 1, none⟩], 100⟩) :=
        cacheRecord_fresh e JitStats.init []
      rw [hrec, compilePhase_false] at hc1 hc2 hc3
      refine ⟨(execState e t ct JitCompiler.new).stats,
        (execState e t ct JitCompiler.new).env, ?_⟩
      have hm : m = 0 := by omega
      subst hm
      exact jitCompiler_eq _ _ _ _ _ _ rfl hc2 rfl hc1 hc3
    · obtain ⟨stats, env, hst⟩ := ih (by omega) (by omega)
      obtain ⟨hc1, hc2, hc3⟩ := execState_fields e t ct (submitTrace e t ct m)
      rw [hst] at hc1 hc2 hc3
      have hb : (isJitCompilable e && (decide (m + 1 ≥ 5) && Option.isNone
          (none : Option CompiledFunction))) = false := by
        have : ¬(m + 1 ≥ 5) := by omega
        simp [this]
      have hrec := cacheRecord_singleton e stats env m none
      rw [hb] at hrec
      rw [hrec, compilePhase_false] at hc1 hc2 hc3
      refine ⟨(execState e t ct ⟨stats, 5, env, [⟨hashExpr e, m, none⟩], 100⟩).stats,
        (execState e t ct ⟨stats, 5, env, [⟨hashExpr e, m, none⟩], 100⟩).env, ?_⟩
      show execState e t ct (submitTrace e t ct m) = _
      rw [hst]
      exact jitCompiler_eq _ _ _ _ _ _ rfl (by simpa using hc2) rfl (by simpa using hc1)
        (by simpa using hc3)

/-- In a same-expression submission trace where generation always fails, the
entry is never compiled and its count keeps increasing. -/
lemma trace_shape_fail (e : Expr) (er : CodeGenError) (t ct : Nat)
    (hgen : generate e = .error er) :
    ∀ n, 1 ≤ n → ∃ stats env,
      submitTrace e t ct n = ⟨stats, 5, env, [⟨hashExpr e, n, none⟩], 100⟩ := by
  intro n
  induction n with
  | zero => omega
  | succ m ih =>
    intro h1
    rcases Nat.eq_or_lt_of_le h1 with he | hlt
    · obtain ⟨hc1, hc2, hc3⟩ := execState_fields e t ct JitCompiler.new
      have hrec : cacheRecord (hashExpr e) (isJitCompilable e) JitCompiler.new =
          (false, ⟨JitStats.init, 5, [], [⟨hashExpr e, 1, none⟩], 100⟩) :=
        cacheRecord_fresh e JitStats.init []
      rw [hrec, compilePhase_false] at hc1 hc2 hc3
      refine ⟨(execState e t ct JitCompiler.new).stats,
        (execState e t ct JitCompiler.new).env, ?_⟩
      have hm : m = 0 := by omega
      subst hm
      exact jitCompiler_eq _ _ _ _ _ _ rfl hc2 rfl hc1 hc3
    · obtain ⟨stats, env, hst⟩ := ih (by omega)
      obtain ⟨hc1, hc2, hc3⟩ := execState_fields e t ct (submitTrace e t ct m)
      rw [hst] at hc1 hc2 hc3
      have hrec := cacheRecord_singleton e stats env m none
      rw [hrec, compilePhase_gen_error e (hashExpr e) _ ct _ er hgen] at hc1 hc2 hc3
      refine ⟨(execState e t ct ⟨stats, 5, env, [⟨hashExpr e, m, none⟩], 100⟩).stats,
        (execState e t ct ⟨stats, 5, env, [⟨hashExpr e, m, none⟩], 100⟩).env, ?_⟩
      show execState e t ct (submitTrace e t ct m) = _
      rw [hst]
      exact jitCompiler_eq _ _ _ _ _ _ rfl (by simpa using hc2) rfl (by simpa using hc1)
        (by simpa using hc3)

/-- C2 counterexample: for the compilable expression `1 % 2` (whose
generation fails), `should_jit` is true on the fifth *and* on the sixth
submission, so it is not true "exactly the first time" the threshold
condition holds. -/
theorem c2_counterexample_should_jit_twice :
    shouldJitAt (.binary (.number 1) .mod (.number 2))
      (submitTrace (.binary (.number 1) .mod (.number 2)) 0 0 4) = true ∧
    shouldJitAt (.binary (.number 1) .mod (.number 2))
      (submitTrace (.binary (.number 1) .mod (.number 2)) 0 0 5) = true := by
  exact ⟨by decide, by decide⟩

/-- C2 (amended): with `hot_threshold = 5`, no one of the first four
submissions of a compilable expression invokes the code generator and the
fifth does; `should_jit` is true whenever the updated execution count
reaches the threshold with no artifact installed and the predicate passed
(hence exactly once when generation succeeds, but again after a failed
generation). -/
theorem c2_threshold_amended (e : Expr) (t ct : Nat)
    (hc : isJitCompilable e = true) :
    (∀ n, n < 4 → shouldJitAt e (submitTrace e t ct n) = false) ∧
    shouldJitAt e (submitTrace e t ct 4) = true := by
  constructor
  · intro n hn
    cases n with
    | zero =>
      show (cacheRecord (hashExpr e) (isJitCompilable e) JitCompiler.new).1 = false
      rw [show (JitCompiler.new : JitCompiler) = ⟨JitStats.init, 5, [], [], 100⟩ from rfl,
        cacheRecord_fresh]
    | succ m =>
      obtain ⟨stats, env, hst⟩ := trace_shape_low e t ct (m + 1) (by omega) (by omega)
      show (cacheRecord (hashExpr e) (isJitCompilable e) (submitTrace e t ct (m + 1))).1 =
        false
      rw [hst, cacheRecord_singleton]
      have hlt : ¬(m + 1 + 1 ≥ 5) := by omega
      simp [hlt]
  · obtain ⟨stats, env, hst⟩ := trace_shape_low e t ct 4 (by omega) (by omega)
    show (cacheRecord (hashExpr e) (isJitCompilable e) (submitTrace e t ct 4)).1 = true
    rw [hst, cacheRecord_singleton]
    simp [hc]

theorem c2_threshold_amended_witness :
    shouldJitAt (.number 1) (submitTrace (.number 1) 0 0 4) = true ∧
    shouldJitAt (.number 1) (submitTrace (.number 1) 0 0 3) = false :=
  ⟨(c2_threshold_amended (.number 1) 0 0 rfl).2,
   (c2_threshold_amended (.number 1) 0 0 rfl).1 3 (by omega)⟩

/-- C3 counterexample: after the failed generation of `1 % 2` on its fifth
submission, the sixth submission invokes the code generator again
(`should_jit` is still true), and no compilation has ever succeeded. -/
theorem c3_counterexample_generator_reinvoked :
    (∃ er, generate (.binary (.number 1) .mod (.number 2)) = .error er) ∧
    shouldJitAt (.binary (.number 1) .mod (.number 2))
      (submitTrace (.binary (.number 1) .mod (.number 2)) 0 0 5) = true ∧
    (submitTrace (.binary (.number 1) .mod (.number 2)) 0 0 6).stats.jit_compilations = 0 := by
  refine ⟨⟨.unsupportedBinaryOperation .mod, rfl⟩, by decide, by decide⟩

/-- C3 (amended): when generation fails for a compilable expression, every
later submission still falls back to the Interpreter (the result is never
marked JIT-compiled), but the entry is not terminal: the code generator is
re-invoked on every submission from the threshold on. -/
theorem c3_failed_generation_amended (e : Expr) (er : CodeGenError) (t ct : Nat)
    (hc : isJitCompilable e = true) (hgen : generate e = .error er) :
    ∀ n, 4 ≤ n →
      shouldJitAt e (submitTrace e t ct n) = true ∧
      ∀ r : ExecutionResult, (execute e t ct (submitTrace e t ct n)).1 = .ok r →
        r.was_jit_compiled = false := by
  intro n hn
  obtain ⟨stats, env, hst⟩ := trace_shape_fail e er t ct hgen n (by omega)
  constructor
  · show (cacheRecord (hashExpr e) (isJitCompilable e) (submitTrace e t ct n)).1 = true
    rw [hst, cacheRecord_singleton]
    have h5 : n + 1 ≥ 5 := by omega
    simp [hc, h5]
  · intro r hr
    rw [hst] at hr
    cases hev : evalExpr e env with
    | mk res env' =>
      cases res with
      | error er₂ =>
        simp [execute, cacheRecord_singleton, compilePhase, hgen, runPhase, cacheFind,
          evaluate, hev, statsPhase] at hr
      | ok v =>
        simp [execute, cacheRecord_singleton, compilePhase, hgen, runPhase, cacheFind,
          evaluate, hev, statsPhase] at hr
        first
        | rw [← hr]
        | rw [hr]
        | simp [← hr]
        | simp_all

theorem c3_failed_generation_amended_witness :
    shouldJitAt (.binary (.number 1) .mod (.number 2))
      (submitTrace (.binary (.number 1) .mod (.number 2)) 3 9 4) = true :=
  (c3_failed_generation_amended (.binary (.number 1) .mod (.number 2))
    (.unsupportedBinaryOperation .mod) 3 9 rfl rfl 4 (by omega)).1

lemma minByCountAux_spec (l : List JitEntry) : ∀ best : JitEntry,
    (minByCountAux best l = best ∨ minByCountAux best l ∈ l) ∧
    (minByCountAux best l).execution_count ≤ best.execution_count ∧
    ∀ x ∈ l, (minByCountAux best l).execution_count ≤ x.execution_count := by
  induction l with
  | nil => exact fun best => ⟨Or.inl rfl, Nat.le_refl _, fun x hx => absurd hx (by simp)⟩
  | cons en rest ih =>
    intro best
    by_cases hlt : en.execution_count < best.execution_count
    · have h := ih en
      rw [show minByCountAux best (en :: rest) = minByCountAux en rest from by
        simp [minByCountAux, hlt]]
      refine ⟨?_, ?_, ?_⟩
      · rcases h.1 with h1 | h1
        · exact Or.inr (by simp [h1])
        · exact Or.inr (by simp [h1])
      · have := h.2.1
        omega
      · intro x hx
        simp at hx
        rcases hx with rfl | hx
        · exact h.2.1
        · exact h.2.2 x hx

    · have h := ih best
      rw [show minByCountAux best (en :: rest) = minByCountAux best rest from by
        simp [minByCountAux, hlt]]
      refine ⟨?_, h.2.1, ?_⟩
      · rcases h.1 with h1 | h1
        · exact Or.inl h1
        · exact Or.inr (by simp [h1])
      · intro x hx
        simp at hx
        rcases hx with rfl | hx
        · have := h.2.1
          omega
        · exact h.2.2 x hx

lemma minByCount_spec (cache : List JitEntry) (en : JitEntry)
    (h : minByCount cache = some en) :
    en ∈ cache ∧ ∀ x ∈ cache, en.execution_count ≤ x.execution_count := by
  cases cache with
  | nil => exact Option.noConfusion h
  | cons c0 crest =>
    simp only [minByCount] at h
    injection h with h'
    subst h'
    have hs := minByCountAux_spec crest c0
    refine ⟨?_, ?_⟩
    · rcases hs.1 with h1 | h1
      · simp [h1]
      · simp [h1]
    · intro x hx
      simp at hx
      rcases hx with rfl | hx
      · exact hs.2.1
      · exact hs.2.2 x hx

lemma cacheUpdate_length (h : Nat) (e' : JitEntry) (c : List JitEntry) :
    (cacheUpdate h e' c).length = c.length := by
  induction c with
  | nil => rfl
  | cons en rest ih =>
    by_cases he : en.expr_hash = h
    · simp [cacheUpdate, he]
    · simp [cacheUpdate, he, ih]

lemma cacheRemove_length_mem (h : Nat) (c : List JitEntry)
    (hmem : ∃ en ∈ c, en.expr_hash = h) :
    (cacheRemove h c).length + 1 = c.length := by
  induction c with
  | nil => simp at hmem
  | cons en rest ih =>
    by_cases he : en.expr_hash = h
    · simp [cacheRemove, he]
    · have hmem' : ∃ en ∈ rest, en.expr_hash = h := by
        obtain ⟨x, hx, hxh⟩ := hmem
        simp at hx
        rcases hx with rfl | hx
        · exact absurd hxh he
        · exact ⟨x, hx, hxh⟩
      simp only [cacheRemove, he, if_false, List.length_cons]
      rw [← ih hmem']

lemma compilePhase_cache_length (e : Expr) (h : Nat) (b : Bool) (ct : Nat)
    (s : JitCompiler) :
    (compilePhase e h b ct s).jit_cache.length = s.jit_cache.length := by
  unfold compilePhase
  cases b
  · simp
  · simp only [if_true]
    cases generate e with
    | error er => simp
    | ok cf =>
      simp only []
      cases hfind : cacheFind h
          ({ s with stats := { s.stats with jit_compilations := s.stats.jit_compilations + 1, total_compilation_time_ns := s.stats.total_compilation_time_ns + ct } } : JitCompiler).jit_cache with
      | none => simp
      | some entry => simp [cacheUpdate_length]

/-- C4 (amended): the JIT cache never grows beyond `max_cache_size` (100),
and when a fingerprint not already present is inserted while the cache is
full, exactly one entry is evicted before insertion, namely the first entry
in the hash map's iteration order whose `execution_count` is globally
minimal — the tie among minimal entries is broken by iteration order, not
necessarily by lowest fingerprint value. -/
theorem cache_capacity_amended (e : Expr) (t ct : Nat) (s : JitCompiler)
    (hmax : s.max_cache_size = 100) :
    (s.jit_cache.length ≤ 100 → (execState e t ct s).jit_cache.length ≤ 100) ∧
    (cacheFind (hashExpr e) s.jit_cache = none → s.jit_cache.length = 100 →
      ∃ ev : JitEntry, minByCount s.jit_cache = some ev ∧ ev ∈ s.jit_cache ∧
        (∀ en ∈ s.jit_cache, ev.execution_count ≤ en.execution_count) ∧
        (execState e t ct s).jit_cache =
          cacheRemove ev.expr_hash s.jit_cache ++ [⟨hashExpr e, 1, none⟩] ∧
        (execState e t ct s).jit_cache.length = 100) := by
  constructor
  · intro hlen
    obtain ⟨hc1, hc2, hc3⟩ := execState_fields e t ct s
    have hlen1 : (execState e t ct s).jit_cache.length =
        (cacheRecord (hashExpr e) (isJitCompilable e) s).2.jit_cache.length := by
      rw [hc1, compilePhase_cache_length]
    rw [hlen1]
    unfold cacheRecord
    cases hfind : cacheFind (hashExpr e) s.jit_cache with
    | some entry => simp [cacheUpdate_length, hlen]
    | none =>
      simp only []
      by_cases hfull : s.jit_cache.length ≥ s.max_cache_size
      · rw [if_pos hfull]
        cases hmin : minByCount s.jit_cache with
        | none =>
          cases hcache : s.jit_cache with
          | nil => simp [hcache]
          | cons c0 crest =>
            rw [hcache] at hmin
            exact Option.noConfusion hmin
        | some ev =>
          have hmem : ∃ en ∈ s.jit_cache, en.expr_hash = ev.expr_hash :=
            ⟨ev, (minByCount_spec s.jit_cache ev hmin).1, rfl⟩
          have hrl := cacheRemove_length_mem ev.expr_hash s.jit_cache hmem
          simp only [List.length_append, List.length_cons, List.length_nil]
          omega
      · rw [if_neg hfull]
        rw [hmax] at hfull
        simp only [List.length_append, List.length_cons, List.length_nil]
        omega
  · intro hfind hlen
    obtain ⟨c0, crest, hcache⟩ : ∃ c0 crest, s.jit_cache = c0 :: crest := by
      cases hcc : s.jit_cache with
      | nil =>
        rw [hcc] at hlen
        simp at hlen
      | cons c0 crest => exact ⟨c0, crest, rfl⟩
    · have hmin : minByCount s.jit_cache = some (minByCountAux c0 crest) := by
        rw [hcache]
        rfl
      obtain ⟨hmem, hminle⟩ := minByCount_spec s.jit_cache _ hmin
      have hrec : cacheRecord (hashExpr e) (isJitCompilable e) s =
          (false, { s with jit_cache := (cacheRemove (minByCountAux c0 crest).expr_hash s.jit_cache ++ [⟨hashExpr e, 1, none⟩]) }) := by
        unfold cacheRecord
        rw [hfind]
        have hfull : s.jit_cache.length ≥ s.max_cache_size := by
          rw [hmax, hlen]
        rw [if_pos hfull, hmin]
      obtain ⟨hd1, hd2, hd3⟩ := execState_fields e t ct s
      rw [hrec] at hd1
      simp only [] at hd1
      rw [compilePhase_false] at hd1
      simp only [] at hd1
      have hrl := cacheRemove_length_mem (minByCountAux c0 crest).expr_hash s.jit_cache
        ⟨_, hmem, rfl⟩
      refine ⟨minByCountAux c0 crest, hmin, hmem, hminle, hd1, ?_⟩
      rw [hd1]
      simp only [List.length_append, List.length_cons, List.length_nil]
      omega

/-- A full cache of 100 entries, all with execution count 1: fingerprint
1000 first in iteration order, then fingerprints 0..98. -/
def c4Cache : List JitEntry :=
  ⟨1000, 1, none⟩ :: (List.range 99).map (fun i => ⟨i, 1, none⟩)

/-- The compiler state holding `c4Cache`. -/
def c4State : JitCompiler := ⟨JitStats.init, 5, [], c4Cache, 100⟩

set_option maxRecDepth 8000 in
/-- C4 counterexample: with every count equal (all minimal), inserting a new
fingerprint into the full cache evicts fingerprint 1000 — the first minimal
entry in iteration order — and not fingerprint 0, the entry with the lowest
fingerprint value, which survives.  Ties are therefore not broken by lowest
fingerprint value. -/
theorem c4_counterexample_tie_break :
    c4State.jit_cache.length = 100 ∧
    cacheFind 1000 c4State.jit_cache = some ⟨1000, 1, none⟩ ∧
    cacheFind 0 c4State.jit_cache = some ⟨0, 1, none⟩ ∧
    cacheFind 1000 (execState (.number 7) 0 0 c4State).jit_cache = none ∧
    cacheFind 0 (execState (.number 7) 0 0 c4State).jit_cache = some ⟨0, 1, none⟩ ∧
    (execState (.number 7) 0 0 c4State).jit_cache.length = 100 := by
  refine ⟨by decide, by decide, by decide, by decide, by decide, by decide⟩

set_option maxRecDepth 8000 in
theorem cache_capacity_amended_witness :
    ∃ ev : JitEntry, minByCount c4State.jit_cache = some ev ∧ ev ∈ c4State.jit_cache ∧
      (∀ en ∈ c4State.jit_cache, ev.execution_count ≤ en.execution_count) ∧
      (execState (.number 7) 0 0 c4State).jit_cache =
        cacheRemove ev.expr_hash c4State.jit_cache ++ [⟨hashExpr (.number 7), 1, none⟩] ∧
      (execState (.number 7) 0 0 c4State).jit_cache.length = 100 :=
  (cache_capacity_amended (.number 7) 0 0 c4State rfl).2 (by decide) (by decide)
